import Mathlib

/-!
Verification of the astra_agi ontology graph store and query engine.

This file gives a shallow embedding, in Lean 4, of the ontology subsystem of
the `astra_agi` repository (`src/knowledge/ontology.rs`, `graph_utils.rs`,
`query.rs`, `query_executor.rs`, `storage.rs`) and proves the testable
properties stated in the specification.

Modelling conventions:
* Rust `HashMap<K, V>` becomes an association list `List (K × V)` with
  `lookupA` / `insertA` giving the map semantics (unique keys, insert
  replaces); Rust `HashSet<T>` becomes a duplicate-free `List T` built with
  `insertS`.  Iteration order of hash containers is unspecified in Rust, and
  every verified property below is insensitive to the orders the lists fix.
* `Id = usize` becomes `Nat` (no arithmetic beyond `+ 1` is performed on ids,
  so overflow is immaterial).
* `f64` attribute payloads become `ℚ`: the verified claims concern variant
  tags and operator dispatch, never floating-point rounding, and `ℚ` carries
  the linear order that `PartialOrd` provides on the non-NaN floats.
* The `Storage` backend becomes explicit state passing: the `storage` field
  of the Rust struct is threaded as a separate argument, and fallible
  operations return `Except String`.
* Loops (`while let` in `bfs` / `shortest_path`) become fuel-indexed
  structural recursion; the fuel is computed from the graph and proved
  sufficient.
-/

namespace Astra

/-! ## Association-list maps and list sets (HashMap / HashSet model) -/

/-- Map lookup on an association list (model of `HashMap::get`). -/
def lookupA {α β : Type} [DecidableEq α] : List (α × β) → α → Option β
  | [], _ => none
  | (k, v) :: rest, a => if k = a then some v else lookupA rest a

/-- Map insert on an association list: replaces the binding of an existing
key in place, otherwise appends (model of `HashMap::insert`). -/
def insertA {α β : Type} [DecidableEq α] : List (α × β) → α → β → List (α × β)
  | [], k, v => [(k, v)]
  | (k', v') :: rest, k, v =>
      if k' = k then (k, v) :: rest else (k', v') :: insertA rest k v

/-- Set insert on a list (model of `HashSet::insert`): no duplicates. -/
def insertS {α : Type} [DecidableEq α] (s : List α) (a : α) : List α :=
  if a ∈ s then s else s ++ [a]

theorem lookupA_insertA {α β : Type} [DecidableEq α]
    (m : List (α × β)) (k k' : α) (v : β) :
    lookupA (insertA m k v) k' = if k = k' then some v else lookupA m k' := by
  induction m with
  | nil => simp [insertA, lookupA]
  | cons p rest ih =>
      obtain ⟨a, b⟩ := p
      by_cases hak : a = k
      · subst hak
        by_cases hkk' : a = k' <;> simp [insertA, lookupA, hkk']
      · simp only [insertA, if_neg hak, lookupA]
        by_cases hak' : a = k'
        · subst hak'
          have : ¬ k = a := fun h => hak h.symm
          simp [this, lookupA]
        · simp [hak', ih]

theorem mem_insertS {α : Type} [DecidableEq α] (s : List α) (a b : α) :
    b ∈ insertS s a ↔ b ∈ s ∨ b = a := by
  unfold insertS
  by_cases h : a ∈ s
  · simp only [if_pos h]
    constructor
    · exact fun hb => Or.inl hb
    · rintro (hb | rfl) <;> [exact hb; exact h]
  · simp [if_neg h]

theorem nodup_insertS {α : Type} [DecidableEq α] (s : List α) (a : α)
    (h : s.Nodup) : (insertS s a).Nodup := by
  unfold insertS
  by_cases ha : a ∈ s
  · simpa [ha]
  · simp only [if_neg ha]
    simpa [List.nodup_append] using ⟨h, fun hb => ha hb⟩

/-! ## Data model (`ontology.rs`) -/

/-- Model of `AttributeType` from `ontology.rs`. -/
inductive AttributeType : Type
  | string
  | integer
  | float
  | boolean
  | reference (id : Nat)
deriving DecidableEq, Repr

/-- Model of `AttributeValue` from `ontology.rs`; `Float(f64)` is modelled with `ℚ`. -/
inductive AttributeValue : Type
  | string (s : String)
  | integer (i : Int)
  | float (q : ℚ)
  | boolean (b : Bool)
  | reference (id : Nat)
deriving DecidableEq, Repr

/-- Model of `RelationshipType` from `ontology.rs`. -/
inductive RelationshipType : Type
  | parentOf
  | childOf
  | friendOf
  | worksAt
  | relatedTo
  | custom (s : String)
deriving DecidableEq, Repr

/-- Model of `Concept` from `ontology.rs` (`parent_ids: HashSet<Id>` as a list,
`attributes: HashMap<String, AttributeType>` as an association list). -/
structure Concept : Type where
  id : Nat
  name : String
  parent_ids : List Nat
  attributes : List (String × AttributeType)
deriving DecidableEq, Repr

/-- Model of `Entity` from `ontology.rs`. -/
structure Entity : Type where
  id : Nat
  concept_id : Nat
  attribute_values : List (String × AttributeValue)
deriving DecidableEq, Repr

/-- Model of `Relationship` from `ontology.rs`. -/
structure Relationship : Type where
  id : Nat
  from_entity : Nat
  to_entity : Nat
  rel_type : RelationshipType
deriving DecidableEq, Repr

/-- The pure data of `Ontology<S>` from `ontology.rs`: every field except the
`storage` backend, which the embedding threads as a separate argument. -/
structure Ontology : Type where
  next_id : Nat
  concepts : List (Nat × Concept)
  concepts_by_name : List (String × Nat)
  entities : List (Nat × Entity)
  relationships : List (Nat × Relationship)
  attribute_index : List (String × List (AttributeValue × List Nat))
  relationship_index : List (Nat × List (RelationshipType × List Nat))
  adjacency_list : List (Nat × List Nat)
deriving DecidableEq, Repr

namespace Ontology

/-- Model of `Ontology::new` (the storage argument is threaded separately). -/
def new : Ontology :=
  { next_id := 1
    concepts := []
    concepts_by_name := []
    entities := []
    relationships := []
    attribute_index := []
    relationship_index := []
    adjacency_list := [] }

/-- Model of `Ontology::add_concept`. Returns the mutated ontology and the fresh id. -/
def add_concept (o : Ontology) (name : String) (parents : List Nat)
    (attributes : List (String × AttributeType)) : Ontology × Nat :=
  let id := o.next_id
  let c : Concept := { id := id, name := name, parent_ids := parents,
                       attributes := attributes }
  ({ o with
      next_id := o.next_id + 1
      concepts_by_name := insertA o.concepts_by_name name id
      concepts := insertA o.concepts id c }, id)

/-- One step of the attribute-index update loop in `Ontology::add_entity`:
`attribute_index.entry(name).or_default().entry(value).or_default().insert(id)`. -/
def indexAttr (idx : List (String × List (AttributeValue × List Nat)))
    (name : String) (value : AttributeValue) (id : Nat) :
    List (String × List (AttributeValue × List Nat)) :=
  let valMap := (lookupA idx name).getD []
  let ids := (lookupA valMap value).getD []
  insertA idx name (insertA valMap value (insertS ids id))

/-- Model of `Ontology::add_entity`: stores the entity, then inserts every
`(name, value)` pair into the attribute index. -/
def add_entity (o : Ontology) (concept_id : Nat)
    (attribute_values : List (String × AttributeValue)) : Ontology × Nat :=
  let id := o.next_id
  let e : Entity := { id := id, concept_id := concept_id,
                      attribute_values := attribute_values }
  ({ o with
      next_id := o.next_id + 1
      entities := insertA o.entities id e
      attribute_index :=
        attribute_values.foldl (fun idx p => indexAttr idx p.1 p.2 id)
          o.attribute_index }, id)

/-- Model of `Ontology::add_relationship`: stores the relationship, updates the
relationship index and the adjacency list.  Endpoints are not validated. -/
def add_relationship (o : Ontology) (from_entity to_entity : Nat)
    (rel_type : RelationshipType) : Ontology × Nat :=
  let id := o.next_id
  let r : Relationship := { id := id, from_entity := from_entity,
                            to_entity := to_entity, rel_type := rel_type }
  let relMap := (lookupA o.relationship_index from_entity).getD []
  let relIds := (lookupA relMap rel_type).getD []
  ({ o with
      next_id := o.next_id + 1
      relationships := insertA o.relationships id r
      relationship_index :=
        insertA o.relationship_index from_entity
          (insertA relMap rel_type (insertS relIds id))
      adjacency_list :=
        insertA o.adjacency_list from_entity
          (insertS ((lookupA o.adjacency_list from_entity).getD []) to_entity) },
   id)

/-- Model of `Ontology::find_entities_by_attribute_indexed`. -/
def find_entities_by_attribute_indexed (o : Ontology) (attr_name : String)
    (attr_value : AttributeValue) : List Entity :=
  match lookupA o.attribute_index attr_name with
  | none => []
  | some valMap =>
      match lookupA valMap attr_value with
      | none => []
      | some ids => ids.filterMap (fun id => lookupA o.entities id)

/-- Model of `Ontology::get_relationships_indexed`. -/
def get_relationships_indexed (o : Ontology) (entity_id : Nat)
    (rel_type_filter : Option RelationshipType) : List Relationship :=
  match lookupA o.relationship_index entity_id with
  | none => []
  | some relMap =>
      match rel_type_filter with
      | some rt =>
          match lookupA relMap rt with
          | none => []
          | some ids => ids.filterMap (fun id => lookupA o.relationships id)
      | none =>
          (relMap.map (fun p => p.2.filterMap
            (fun id => lookupA o.relationships id))).flatten

/-- Model of `Ontology::get_neighbors`: adjacency ids filtered through the entity map
(`filter_map(|id| self.entities.get(id))`). -/
def get_neighbors (o : Ontology) (entity_id : Nat) : List Entity :=
  match lookupA o.adjacency_list entity_id with
  | none => []
  | some neighbors => neighbors.filterMap (fun id => lookupA o.entities id)

/-- Model of `Ontology::get_concept`. -/
def get_concept (o : Ontology) (id : Nat) : Option Concept :=
  lookupA o.concepts id

/-- Model of `Ontology::get_entity`. -/
def get_entity (o : Ontology) (id : Nat) : Option Entity :=
  lookupA o.entities id

end Ontology

/-- Model of `self.entities.values()`: the entities of the graph. -/
def allEntities (o : Ontology) : List Entity :=
  o.entities.map Prod.snd

/-! ## Persistence (`storage.rs` and the persistence methods of `ontology.rs`)

The serde_json encoding is modelled as an abstract round-trippable blob: a
well-formed blob decodes to exactly the ontology it encodes, and a corrupt or
version-incompatible blob decodes to an error.  The sled backend is modelled
as an in-memory key→blob table threaded in state-passing style. -/

/-- A serialized value held by the storage backend. -/
inductive Blob : Type
  | ofOntology (o : Ontology)
  | corrupt (msg : String)
deriving DecidableEq, Repr

/-- The fixed key used by `save_to_storage` / `load_from_storage`. -/
def ontologyKey : String := "ontology_state"

/-- Model of `serde_json::to_string_pretty(self)`: a complete, round-trippable
encoding of the graph (concepts, entities, relationships, indices, next id). -/
def serializeOntology (o : Ontology) : Blob := Blob.ofOntology o

/-- Model of `serde_json::from_slice`: decoding, failing on a corrupt blob. -/
def deserializeOntology : Blob → Except String Ontology
  | Blob.ofOntology o => Except.ok o
  | Blob.corrupt msg => Except.error msg

/-- The state of the sled key-value store (`SledStorage`). -/
abbrev StorageTable := List (String × Blob)

/-- Model of `Storage::save` for the sled backend: insert under the key. -/
def storageSave (tbl : StorageTable) (key : String) (b : Blob) :
    Except String StorageTable :=
  Except.ok (insertA tbl key b)

/-- Model of `Storage::load` for the sled backend: `Ok(None)` on a missing key. -/
def storageLoad (tbl : StorageTable) (key : String) :
    Except String (Option Blob) :=
  Except.ok (lookupA tbl key)

/-- Model of `Ontology::save_to_storage`. -/
def save_to_storage (o : Ontology) (tbl : StorageTable) :
    Except String StorageTable :=
  storageSave tbl ontologyKey (serializeOntology o)

/-- The body of `Ontology::load_from_storage`, abstracted over the outcome of
`self.storage.load("ontology_state")`: an error propagates (`?`), a missing
snapshot leaves the graph untouched and returns `Ok(())`, and a present blob
is deserialized (propagating failure) and replaces the graph (`*self = loaded`).
The returned ontology is the in-memory graph after the call; on `Except.error`
the caller's graph is unchanged, since no replacement was performed. -/
def load_from_storage_result (o : Ontology) (r : Except String (Option Blob)) :
    Except String Ontology :=
  match r with
  | Except.error e => Except.error e
  | Except.ok none => Except.ok o
  | Except.ok (some data) =>
      match deserializeOntology data with
      | Except.error e => Except.error e
      | Except.ok loaded => Except.ok loaded

/-- Model of `Ontology::load_from_storage` against the sled-table backend. -/
def load_from_storage (o : Ontology) (tbl : StorageTable) :
    Except String Ontology :=
  load_from_storage_result o (storageLoad tbl ontologyKey)

/-! ## Query language (`query.rs`) -/

/-- Model of `LogicalOp` from `query.rs`. -/
inductive LogicalOp : Type
  | and
  | or
  | not
deriving DecidableEq, Repr

/-- Model of `ComparisonOp` from `query.rs`. -/
inductive ComparisonOp : Type
  | eq
  | neq
  | gt
  | lt
  | gte
  | lte
deriving DecidableEq, Repr

/-- Model of `AttributeFilter` from `query.rs`. -/
structure AttributeFilter : Type where
  attr_name : String
  op : ComparisonOp
  value : AttributeValue
deriving DecidableEq, Repr

/-- Model of `QueryExpr` from `query.rs` (`conceptQ` is `Concept(Id)`, `notQ` is the
dedicated unary `Not` variant). -/
inductive QueryExpr : Type
  | conceptQ (id : Nat)
  | attrFilter (f : AttributeFilter)
  | logical (op : LogicalOp) (exprs : List QueryExpr)
  | notQ (e : QueryExpr)
deriving Repr

/-! ## Query evaluation (`query_executor.rs`) -/

/-- Model of `Ontology::compare_ord` from `query_executor.rs`: generic comparison
under a comparison operator. -/
def compare_ord {T : Type} [DecidableEq T] [LT T] [LE T]
    [DecidableRel fun a b : T => a < b] [DecidableRel fun a b : T => a ≤ b]
    (a b : T) (op : ComparisonOp) : Bool :=
  match op with
  | ComparisonOp.eq => decide (a = b)
  | ComparisonOp.neq => decide (a ≠ b)
  | ComparisonOp.gt => decide (b < a)
  | ComparisonOp.lt => decide (a < b)
  | ComparisonOp.gte => decide (b ≤ a)
  | ComparisonOp.lte => decide (a ≤ b)

/-- Model of `Ontology::compare_attribute_values` from `query_executor.rs`: same-variant
values compare under the operator, `Reference` supports only equality checks,
and mismatched variants compare false. -/
def compare_attribute_values (val : AttributeValue) (op : ComparisonOp)
    (cmp_val : AttributeValue) : Bool :=
  match val, cmp_val with
  | AttributeValue.integer a, AttributeValue.integer b => compare_ord a b op
  | AttributeValue.float a, AttributeValue.float b => compare_ord a b op
  | AttributeValue.string a, AttributeValue.string b => compare_ord a b op
  | AttributeValue.boolean a, AttributeValue.boolean b => compare_ord a b op
  | AttributeValue.reference a, AttributeValue.reference b =>
      match op with
      | ComparisonOp.eq => decide (a = b)
      | ComparisonOp.neq => decide (a ≠ b)
      | _ => false
  | _, _ => false

/-- Model of `Ontology::find_entities_by_attribute_filter` from `query_executor.rs`:
entities whose value under the filter's attribute exists and compares true. -/
def find_entities_by_attribute_filter (o : Ontology) (f : AttributeFilter) :
    List Entity :=
  (allEntities o).filter (fun e =>
    match lookupA e.attribute_values f.attr_name with
    | some v => compare_attribute_values v f.op f.value
    | none => false)

/-- Modelled from the spec: `Ontology::find_entities_by_concept` is called by
`query` but its definition is not part of the sources; per the spec,
`Concept(id)` returns "all entities with `entity.concept_id == id` (linear
scan)". -/
def find_entities_by_concept (o : Ontology) (concept_id : Nat) : List Entity :=
  (allEntities o).filter (fun e => decide (e.concept_id = concept_id))

/-- The union loop of the `LogicalOp::Or` branch: push each element not yet
present. -/
def unionPush (u : List Entity) (s : List Entity) : List Entity :=
  s.foldl (fun acc e => if e ∈ acc then acc else acc ++ [e]) u

/-- Model of `Ontology::query` from `query_executor.rs`. -/
def query (o : Ontology) : QueryExpr → List Entity
  | QueryExpr.conceptQ concept_id => find_entities_by_concept o concept_id
  | QueryExpr.attrFilter f => find_entities_by_attribute_filter o f
  | QueryExpr.logical op exprs =>
      let sets := exprs.attach.map (fun x => query o x.1)
      match op with
      | LogicalOp.and =>
          match sets with
          | [] => []
          | s0 :: rest =>
              rest.foldl (fun acc s => acc.filter (fun e => decide (e ∈ s))) s0
      | LogicalOp.or => sets.foldl unionPush []
      | LogicalOp.not => []
  | QueryExpr.notQ sub =>
      (allEntities o).filter (fun e => decide (e ∉ query o sub))
termination_by e => sizeOf e
decreasing_by
  all_goals simp_wf
  all_goals have := List.sizeOf_lt_of_mem x.2
  all_goals omega

/-! ## Traversal (`graph_utils.rs`)

The Rust `while let Some(..) = queue.pop_front()` loops become fuel-indexed
structural recursion.  Each iteration pops one queue entry, and each pushed
entry is a previously unvisited id drawn from the adjacency-list values, so
`adjUniv.length + 2` units of fuel are proved sufficient below (the loop is
shown to exit through its empty-queue case, never by exhausting fuel). -/

/-- Model of `self.adjacency_list.get(&current)`, flattened to a neighbor list
(an absent key yields no neighbors). -/
def neighborsOf (o : Ontology) (v : Nat) : List Nat :=
  (lookupA o.adjacency_list v).getD []

/-- Every id that occurs as a stored adjacency-list neighbor. -/
def adjUniv (o : Ontology) : List Nat :=
  (o.adjacency_list.map Prod.snd).flatten

/-- Fuel sufficient to run the BFS loops to completion. -/
def bfsFuel (o : Ontology) : Nat := (adjUniv o).length + 2

/-- The body of the neighbor-expansion loop of `Ontology::bfs`, folded over
an arbitrary neighbor list: push each unvisited neighbor at depth
`depth + 1` and mark it visited. -/
def bfsFold (depth : Nat) (ns : List Nat)
    (qv : List (Nat × Nat) × List Nat) : List (Nat × Nat) × List Nat :=
  ns.foldl
    (fun qv nb =>
      if nb ∈ qv.2 then qv else (qv.1 ++ [(nb, depth + 1)], qv.2 ++ [nb]))
    qv

/-- The neighbor-expansion loop of `Ontology::bfs`. -/
def bfsExpand (o : Ontology) (depth current : Nat)
    (qv : List (Nat × Nat) × List Nat) : List (Nat × Nat) × List Nat :=
  bfsFold depth (neighborsOf o current) qv

/-- The loop of `Ontology::bfs`: pop `(current, depth)`, record it, and
expand its neighbors unless `depth >= max_depth`. -/
def bfsAux (o : Ontology) (max_depth : Nat) :
    Nat → List (Nat × Nat) → List Nat → List Nat → List Nat
  | 0, _, _, result => result
  | _ + 1, [], _, result => result
  | fuel + 1, (current, depth) :: rest, visited, result =>
      if max_depth ≤ depth then
        bfsAux o max_depth fuel rest visited (result ++ [current])
      else
        let s := bfsExpand o depth current (rest, visited)
        bfsAux o max_depth fuel s.1 s.2 (result ++ [current])

/-- Model of `Ontology::bfs`. -/
def bfs (o : Ontology) (start_id max_depth : Nat) : List Nat :=
  bfsAux o max_depth (bfsFuel o) [(start_id, 0)] [start_id] []

/-- The path-reconstruction loop of `Ontology::shortest_path`: follow
predecessors, pushing each onto the accumulated path. -/
def buildPath (preds : List (Nat × Nat)) :
    Nat → Nat → List Nat → List Nat
  | 0, _, path => path
  | fuel + 1, node, path =>
      match lookupA preds node with
      | none => path
      | some pred => buildPath preds fuel pred (path ++ [pred])

/-- The body of the neighbor-expansion loop of `Ontology::shortest_path`,
folded over an arbitrary neighbor list: push each unvisited neighbor, mark
it visited, and record its predecessor. -/
def spFold (current : Nat) (ns : List Nat)
    (st : List Nat × List Nat × List (Nat × Nat)) :
    List Nat × List Nat × List (Nat × Nat) :=
  ns.foldl
    (fun st nb =>
      if nb ∈ st.2.1 then st
      else (st.1 ++ [nb], st.2.1 ++ [nb], insertA st.2.2 nb current))
    st

/-- The neighbor-expansion loop of `Ontology::shortest_path`. -/
def spExpand (o : Ontology) (current : Nat)
    (st : List Nat × List Nat × List (Nat × Nat)) :
    List Nat × List Nat × List (Nat × Nat) :=
  spFold current (neighborsOf o current) st

/-- The loop of `Ontology::shortest_path`: pop `current`; on reaching
`end_id`, reconstruct the path through the predecessor map and reverse it;
otherwise expand neighbors. -/
def spAux (o : Ontology) (end_id : Nat) :
    Nat → List Nat → List Nat → List (Nat × Nat) → Option (List Nat)
  | 0, _, _, _ => none
  | _ + 1, [], _, _ => none
  | fuel + 1, current :: rest, visited, preds =>
      if current = end_id then
        some ((buildPath preds (bfsFuel o) end_id [end_id]).reverse)
      else
        let st := spExpand o current (rest, visited, preds)
        spAux o end_id fuel st.1 st.2.1 st.2.2

/-- Model of `Ontology::shortest_path`. -/
def shortest_path (o : Ontology) (start_id end_id : Nat) :
    Option (List Nat) :=
  spAux o end_id (bfsFuel o) [start_id] [start_id] []

/-! ## Hop distance in the adjacency list

The specification's "shortest directed hop-distance" is formalized through
the ball of radius `n`: the ids reachable from `s` in at most `n` directed
adjacency-list hops. -/

/-- Ids within `n` directed hops of `s` (with multiplicity; only membership
is ever used). -/
def ball (o : Ontology) (s : Nat) : Nat → List Nat
  | 0 => [s]
  | n + 1 =>
      let prev := ball o s n
      prev ++ (prev.map (neighborsOf o)).flatten

/-- Holds when `v` lies at shortest hop-distance exactly `n` from `s`. -/
def IsDist (o : Ontology) (s v n : Nat) : Prop :=
  v ∈ ball o s n ∧ ∀ m < n, v ∉ ball o s m

/-- Holds when `v` is reachable from `s` along directed adjacency-list edges. -/
def Reachable (o : Ontology) (s v : Nat) : Prop :=
  ∃ n, v ∈ ball o s n

/-- Consecutive elements are directed adjacency-list edges. -/
def ValidWalk (o : Ontology) : List Nat → Prop
  | [] => True
  | [_] => True
  | a :: b :: rest => b ∈ neighborsOf o a ∧ ValidWalk o (b :: rest)

/-- A BFS queue carries at most two consecutive depth levels, lower level
first. -/
def TwoLevel (q : List (Nat × Nat)) : Prop :=
  ∃ d0 lo hi, q = lo ++ hi ∧ (∀ p ∈ lo, (p : Nat × Nat).2 = d0) ∧
    (∀ p ∈ hi, (p : Nat × Nat).2 = d0 + 1)

/-- The `shortest_path` queue carries at most two consecutive distance
levels, lower level first (the depths are implicit in the ids there). -/
def SpLevels (o : Ontology) (s : Nat) (q : List Nat) : Prop :=
  ∃ d0 lo hi, q = lo ++ hi ∧ (∀ v ∈ lo, IsDist o s v d0) ∧
    (∀ v ∈ hi, IsDist o s v (d0 + 1))

/-- Loop invariant of `Ontology::bfs` relating the queue, the visited set
and the result list to the hop-distance structure of the graph. -/
structure BfsInv (o : Ontology) (s maxd : Nat) (q : List (Nat × Nat))
    (vis res : List Nat) : Prop where
  hvq : vis = res ++ q.map Prod.fst
  hnodup : vis.Nodup
  hdepth : ∀ p ∈ q, IsDist o s (p : Nat × Nat).1 p.2 ∧ p.2 ≤ maxd
  hlevels : TwoLevel q
  hres : ∀ r ∈ res, r ∈ ball o s maxd
  hresExp : ∀ r ∈ res, ∀ n, IsDist o s r n → n < maxd →
    ∀ w ∈ neighborsOf o r, w ∈ vis
  hbelow : ∀ v m, IsDist o s v m → m ≤ maxd →
    (∀ p ∈ q, m ≤ (p : Nat × Nat).2) → v ∈ vis

/-- Loop invariant of `Ontology::shortest_path` relating the queue, the
visited set and the predecessor map to the hop-distance structure. -/
structure SpInv (o : Ontology) (s endv : Nat) (q vis : List Nat)
    (preds : List (Nat × Nat)) : Prop where
  hvq : ∃ pre, vis = pre ++ q
  hnodup : vis.Nodup
  hstart : s ∈ vis
  hvisDist : ∀ v ∈ vis, ∃ n, IsDist o s v n
  hpredsNoS : lookupA preds s = none
  hlevels : SpLevels o s q
  hpreds : ∀ v u, lookupA preds v = some u → v ∈ neighborsOf o u ∧
    v ∈ vis ∧ u ∈ vis ∧ ∀ n, IsDist o s u n → IsDist o s v (n + 1)
  hpredTot : ∀ v ∈ vis, v = s ∨ ∃ u, lookupA preds v = some u
  hpoppedExp : ∀ r ∈ vis, r ∉ q → ∀ w ∈ neighborsOf o r, w ∈ vis
  hendq : endv ∈ vis → endv ∈ q
  hbelow : ∀ v m, IsDist o s v m →
    (∀ u ∈ q, ∀ n, IsDist o s u n → m ≤ n) → v ∈ vis

/-! ## Mutation sequences

The invariants of §8 of the specification quantify over arbitrary sequences
of `add_*` calls; `Op` is one such call and `applyOps` plays a sequence. -/

/-- A single collaborator-facing mutation. -/
inductive Op : Type
  | addConcept (name : String) (parents : List Nat)
      (attributes : List (String × AttributeType))
  | addEntity (concept_id : Nat)
      (attribute_values : List (String × AttributeValue))
  | addRelationship (from_entity to_entity : Nat) (rel_type : RelationshipType)
deriving Repr

/-- Apply one mutation (discarding the returned id). -/
def applyOp (o : Ontology) : Op → Ontology
  | Op.addConcept name parents attributes =>
      (o.add_concept name parents attributes).1
  | Op.addEntity concept_id attribute_values =>
      (o.add_entity concept_id attribute_values).1
  | Op.addRelationship from_entity to_entity rel_type =>
      (o.add_relationship from_entity to_entity rel_type).1

/-- Apply a sequence of mutations to the empty ontology state. -/
def applyOps (o : Ontology) (ops : List Op) : Ontology :=
  ops.foldl applyOp o

/-- The argument of `add_entity` is a Rust `HashMap`, so its keys are
distinct; `opWf` records that type-level fact for the list model. -/
def opWf : Op → Prop
  | Op.addEntity _ attribute_values => (attribute_values.map Prod.fst).Nodup
  | _ => True

instance (op : Op) : Decidable (opWf op) := by
  cases op <;> simp only [opWf] <;> infer_instance

/-- The id bucket of an attribute-index structure under `(name, value)`. -/
def bucketIds (idx : List (String × List (AttributeValue × List Nat)))
    (name : String) (value : AttributeValue) : List Nat :=
  (lookupA ((lookupA idx name).getD []) value).getD []

/-- The id bucket of the graph's attribute index under `(name, value)`. -/
def idxIds (o : Ontology) (name : String) (value : AttributeValue) : List Nat :=
  bucketIds o.attribute_index name value

/-- Structural well-formedness of the graph store, maintained by every
`add_*` call: entities are keyed by their own fresh, distinct ids;
relationship ids are fresh; and the adjacency list holds exactly the
`to_entity` values of the stored relationships. -/
structure GraphInv (o : Ontology) : Prop where
  entKey : ∀ p ∈ o.entities, (p : Nat × Entity).2.id = p.1
  entFresh : ∀ p ∈ o.entities, (p : Nat × Entity).1 < o.next_id
  entNodup : (o.entities.map Prod.fst).Nodup
  relFresh : ∀ p ∈ o.relationships, (p : Nat × Relationship).1 < o.next_id
  adjOK : ∀ v w : Nat, w ∈ neighborsOf o v ↔
    ∃ p ∈ o.relationships, (p : Nat × Relationship).2.from_entity = v ∧
      p.2.to_entity = w

/-- The attribute-index consistency invariant: the `(name, value)` bucket
holds exactly the ids of stored entities whose value under `name` is
`value`. -/
def IdxInv (o : Ontology) : Prop :=
  ∀ (name : String) (val : AttributeValue) (id : Nat),
    id ∈ idxIds o name val ↔
      ∃ e, lookupA o.entities id = some e ∧
        lookupA e.attribute_values name = some val

/-- Termination measure of the traversal loops: queue length plus the
adjacency-universe ids not yet visited. -/
def loopMeasure (o : Ontology) (qlen : Nat) (vis : List Nat) : Nat :=
  qlen + ((adjUniv o).filter (fun x => decide (x ∉ vis))).length

/-- The variant tag of an `AttributeValue` (used to state the cross-variant
comparison behavior of the specification). -/
def variantIndex : AttributeValue → Nat
  | AttributeValue.string _ => 0
  | AttributeValue.integer _ => 1
  | AttributeValue.float _ => 2
  | AttributeValue.boolean _ => 3
  | AttributeValue.reference _ => 4

/-! ## Concrete example graphs (used by witnesses and counterexamples) -/

/-- Relationships `1 → 2 → 3` (the spec's Alice/Bob/Carol chain by id). -/
def chainGraph : Ontology :=
  ((Ontology.new.add_relationship 1 2 RelationshipType.friendOf).1.add_relationship
    2 3 RelationshipType.friendOf).1

/-- A single relationship `1 → 2` whose endpoints are not entities. -/
def danglingGraph : Ontology :=
  (Ontology.new.add_relationship 1 2 RelationshipType.friendOf).1

/-- A `Person` concept with one entity of age 30. -/
def personOps : List Op :=
  [Op.addConcept "Person" [] [("age", AttributeType.integer)],
   Op.addEntity 1 [("age", AttributeValue.integer 30)]]

/-! ## Association-list lemmas -/

theorem lookupA_eq_none_iff {α β : Type} [DecidableEq α]
    (m : List (α × β)) (k : α) :
    lookupA m k = none ↔ ∀ p ∈ m, p.1 ≠ k := by
  induction m with
  | nil => simp [lookupA]
  | cons p rest ih =>
      obtain ⟨a, b⟩ := p
      by_cases hak : a = k
      · subst hak
        simp [lookupA]
      · simp [lookupA, hak, ih]

theorem lookupA_mem {α β : Type} [DecidableEq α] {m : List (α × β)} {k : α}
    {v : β} (h : lookupA m k = some v) : (k, v) ∈ m := by
  induction m with
  | nil => simp [lookupA] at h
  | cons p rest ih =>
      obtain ⟨a, b⟩ := p
      by_cases hak : a = k
      · subst hak
        simp only [lookupA, if_true, eq_self_iff_true, Option.some.injEq] at h
        subst h
        exact List.mem_cons_self _ _
      · simp only [lookupA, if_neg hak] at h
        exact List.mem_cons_of_mem _ (ih h)

theorem lookupA_of_mem_nodup {α β : Type} [DecidableEq α] {m : List (α × β)}
    (hn : (m.map Prod.fst).Nodup) {p : α × β} (hp : p ∈ m) :
    lookupA m p.1 = some p.2 := by
  induction m with
  | nil => cases hp
  | cons q rest ih =>
      obtain ⟨a, b⟩ := q
      simp only [List.map_cons, List.nodup_cons, List.mem_map] at hn
      rcases List.mem_cons.mp hp with h | h
      · subst h
        simp [lookupA]
      · have hne : a ≠ p.1 := by
          intro he
          exact hn.1 ⟨p, h, he.symm⟩
        simp only [lookupA, if_neg hne]
        exact ih hn.2 h

/-! ## Query-evaluator unfolding lemmas -/

theorem query_attrFilter (o : Ontology) (f : AttributeFilter) :
    query o (QueryExpr.attrFilter f) = find_entities_by_attribute_filter o f := by
  simp [query]

theorem query_conceptQ (o : Ontology) (cid : Nat) :
    query o (QueryExpr.conceptQ cid) = find_entities_by_concept o cid := by
  simp [query]

theorem query_notQ (o : Ontology) (sub : QueryExpr) :
    query o (QueryExpr.notQ sub) =
      (allEntities o).filter (fun e => decide (e ∉ query o sub)) := by
  simp [query]

theorem query_logical_and (o : Ontology) (exprs : List QueryExpr) :
    query o (QueryExpr.logical LogicalOp.and exprs) =
      (match exprs.map (query o) with
       | [] => []
       | s0 :: rest =>
           rest.foldl (fun acc s => acc.filter (fun e => decide (e ∈ s))) s0) := by
  rw [query]
  simp [List.attach_map_val]

theorem query_logical_or (o : Ontology) (exprs : List QueryExpr) :
    query o (QueryExpr.logical LogicalOp.or exprs) =
      (exprs.map (query o)).foldl unionPush [] := by
  rw [query]
  simp [List.attach_map_val]

theorem query_logical_not (o : Ontology) (exprs : List QueryExpr) :
    query o (QueryExpr.logical LogicalOp.not exprs) = [] := by
  rw [query]

theorem mem_unionPush (u s : List Entity) (e : Entity) :
    e ∈ unionPush u s ↔ e ∈ u ∨ e ∈ s := by
  induction s generalizing u with
  | nil => simp [unionPush]
  | cons a s ih =>
      show e ∈ unionPush (if a ∈ u then u else u ++ [a]) s ↔ _
      rw [ih]
      by_cases ha : a ∈ u
      · simp only [if_pos ha, List.mem_cons]
        constructor
        · rintro (h | h)
          · exact Or.inl h
          · exact Or.inr (Or.inr h)
        · rintro (h | rfl | h)
          · exact Or.inl h
          · exact Or.inl ha
          · exact Or.inr h
      · simp only [if_neg ha, List.mem_append, List.mem_singleton,
          List.mem_cons]
        tauto

theorem mem_find_entities_by_attribute_filter (o : Ontology)
    (f : AttributeFilter) (e : Entity) :
    e ∈ find_entities_by_attribute_filter o f ↔
      e ∈ allEntities o ∧ ∃ v, lookupA e.attribute_values f.attr_name = some v ∧
        compare_attribute_values v f.op f.value = true := by
  unfold find_entities_by_attribute_filter
  rw [List.mem_filter]
  cases h : lookupA e.attribute_values f.attr_name <;> simp [h]

/-! ## Claim theorems: query engine and persistence -/

/-- C2. Query set algebra: for every graph state and expressions `X`, `Y`,
`query(Logical{And,[X,Y]})` is the intersection of `query(X)` and `query(Y)`,
`query(Logical{Or,[X,Y]})` is their union, `query(Not(X))` is all entities
minus `query(X)`, and the empty `And`/`Or` both return the empty set. -/
theorem C2_query_set_algebra (o : Ontology) (X Y : QueryExpr) :
    (∀ e : Entity, e ∈ query o (QueryExpr.logical LogicalOp.and [X, Y]) ↔
      e ∈ query o X ∧ e ∈ query o Y) ∧
    (∀ e : Entity, e ∈ query o (QueryExpr.logical LogicalOp.or [X, Y]) ↔
      e ∈ query o X ∨ e ∈ query o Y) ∧
    (∀ e : Entity, e ∈ query o (QueryExpr.notQ X) ↔
      e ∈ allEntities o ∧ e ∉ query o X) ∧
    query o (QueryExpr.logical LogicalOp.and []) = [] ∧
    query o (QueryExpr.logical LogicalOp.or []) = [] := by
  refine ⟨fun e => ?_, fun e => ?_, fun e => ?_, ?_, ?_⟩
  · rw [query_logical_and]
    simp only [List.map_cons, List.map_nil, List.foldl_cons, List.foldl_nil]
    rw [List.mem_filter]
    simp
  · rw [query_logical_or]
    simp only [List.map_cons, List.map_nil, List.foldl_cons, List.foldl_nil]
    rw [mem_unionPush, mem_unionPush]
    simp
  · rw [query_notQ, List.mem_filter]
    simp
  · rw [query_logical_and]
    rfl
  · rw [query_logical_or]
    rfl

/-- C3. Persistence round-trip: saving the graph and then loading from the
same backend key succeeds and reproduces the graph exactly (hence every
concept, entity, relationship, the id allocator, and every index-backed
query result), even when loading into a freshly constructed graph. -/
theorem C3_persistence_round_trip (o : Ontology) (tbl : StorageTable) :
    ∃ tbl', save_to_storage o tbl = Except.ok tbl' ∧
      ∀ o₂ : Ontology, load_from_storage o₂ tbl' = Except.ok o := by
  refine ⟨insertA tbl ontologyKey (serializeOntology o), rfl, fun o₂ => ?_⟩
  unfold load_from_storage storageLoad
  rw [lookupA_insertA]
  simp [load_from_storage_result, serializeOntology, deserializeOntology]

/-- C8. Load preserves state on non-success: a backend `Ok(None)` makes
`load_from_storage` return `Ok(())` with the in-memory graph unchanged, and a
backend error or a deserialization failure propagates as a single error, again
without replacing the in-memory graph (the replacement `*self = loaded` only
happens on the success path, which the returned value reflects). -/
theorem C8_load_preserves_state (o : Ontology) (e msg : String)
    (tbl : StorageTable) :
    load_from_storage_result o (Except.ok none) = Except.ok o ∧
    load_from_storage_result o (Except.error e) = Except.error e ∧
    load_from_storage_result o (Except.ok (some (Blob.corrupt msg))) =
      Except.error msg ∧
    (lookupA tbl ontologyKey = none → load_from_storage o tbl = Except.ok o) := by
  refine ⟨rfl, rfl, rfl, fun h => ?_⟩
  unfold load_from_storage storageLoad
  rw [h]
  rfl

theorem C8_load_preserves_state_witness :
    lookupA ([] : StorageTable) ontologyKey = none ∧
      load_from_storage Ontology.new [] = Except.ok Ontology.new :=
  ⟨rfl, (C8_load_preserves_state Ontology.new "" "" []).2.2.2 rfl⟩

/-- C9. The `Logical{op: Not, ..}` combination is dead: for every graph state
and every subexpression list it evaluates to the empty set. -/
theorem C9_logical_not_dead_branch (o : Ontology) (exprs : List QueryExpr) :
    query o (QueryExpr.logical LogicalOp.not exprs) = [] :=
  query_logical_not o exprs

/-- C7. Attribute-filter evaluation: `query(AttrFilter(f))` returns exactly
the entities holding `f.attr_name` with a value comparing true under `f.op`
(entities lacking the attribute are excluded, not an error); cross-variant
comparisons are false; `Reference` supports only `Eq`/`Neq`; `Boolean`
supports ordering with `false < true`. -/
theorem C7_attr_filter_semantics (o : Ontology) (f : AttributeFilter) :
    (∀ e : Entity, e ∈ query o (QueryExpr.attrFilter f) ↔
      e ∈ allEntities o ∧ ∃ v, lookupA e.attribute_values f.attr_name = some v ∧
        compare_attribute_values v f.op f.value = true) ∧
    (∀ a b : AttributeValue, ∀ op : ComparisonOp,
      variantIndex a ≠ variantIndex b →
        compare_attribute_values a op b = false) ∧
    (∀ i j : Nat, ∀ op : ComparisonOp,
      op ≠ ComparisonOp.eq → op ≠ ComparisonOp.neq →
        compare_attribute_values (AttributeValue.reference i) op
          (AttributeValue.reference j) = false) ∧
    compare_attribute_values (AttributeValue.boolean false) ComparisonOp.lt
      (AttributeValue.boolean true) = true ∧
    compare_attribute_values (AttributeValue.boolean true) ComparisonOp.gt
      (AttributeValue.boolean false) = true ∧
    (∀ x : Bool, compare_attribute_values (AttributeValue.boolean x)
      ComparisonOp.lt (AttributeValue.boolean x) = false) := by
  refine ⟨fun e => ?_, fun a b op h => ?_, fun i j op h1 h2 => ?_, ?_, ?_,
    fun x => ?_⟩
  · rw [query_attrFilter]
    exact mem_find_entities_by_attribute_filter o f e
  · cases a <;> cases b <;> simp_all [compare_attribute_values, variantIndex]
  · cases op <;> simp_all [compare_attribute_values]
  · decide
  · decide
  · cases x <;> decide

/-! ## Store invariants under mutation sequences (for C1 and C6) -/

theorem insertA_of_fresh {α β : Type} [DecidableEq α] {m : List (α × β)}
    {k : α} (h : lookupA m k = none) (v : β) :
    insertA m k v = m ++ [(k, v)] := by
  induction m with
  | nil => rfl
  | cons p rest ih =>
      obtain ⟨a, b⟩ := p
      simp only [lookupA] at h
      by_cases hak : a = k
      · simp [hak] at h
      · simp only [insertA, if_neg hak, List.cons_append, List.cons.injEq,
          true_and]
        exact ih (by simpa [hak] using h)

theorem mem_bucketIds_indexAttr
    (idx : List (String × List (AttributeValue × List Nat)))
    (n name : String) (v val : AttributeValue) (id x : Nat) :
    x ∈ bucketIds (Ontology.indexAttr idx n v id) name val ↔
      x ∈ bucketIds idx name val ∨ (x = id ∧ n = name ∧ v = val) := by
  unfold Ontology.indexAttr bucketIds
  rw [lookupA_insertA]
  by_cases hn : n = name
  · subst hn
    simp only [eq_self_iff_true, if_true, Option.getD_some]
    rw [lookupA_insertA]
    by_cases hv : v = val
    · subst hv
      simp only [eq_self_iff_true, if_true, Option.getD_some]
      rw [mem_insertS]
      tauto
    · simp only [if_neg hv]
      tauto
  · simp only [if_neg hn]
    tauto

theorem mem_bucketIds_fold
    (avs : List (String × AttributeValue))
    (idx : List (String × List (AttributeValue × List Nat)))
    (name : String) (val : AttributeValue) (id x : Nat) :
    x ∈ bucketIds
        (avs.foldl (fun acc p => Ontology.indexAttr acc p.1 p.2 id) idx)
        name val ↔
      x ∈ bucketIds idx name val ∨ (x = id ∧ (name, val) ∈ avs) := by
  induction avs generalizing idx with
  | nil => simp
  | cons p rest ih =>
      obtain ⟨n, v⟩ := p
      simp only [List.foldl_cons]
      rw [ih, mem_bucketIds_indexAttr]
      simp only [List.mem_cons, Prod.mk.injEq]
      constructor
      · rintro ((h | ⟨rfl, rfl, rfl⟩) | ⟨rfl, h⟩)
        · exact Or.inl h
        · exact Or.inr ⟨rfl, Or.inl ⟨rfl, rfl⟩⟩
        · exact Or.inr ⟨rfl, Or.inr h⟩
      · rintro (h | ⟨rfl, (⟨h1, h2⟩ | h)⟩)
        · exact Or.inl (Or.inl h)
        · exact Or.inl (Or.inr ⟨rfl, h1.symm, h2.symm⟩)
        · exact Or.inr ⟨rfl, h⟩

theorem find_indexed_eq_filterMap (o : Ontology) (name : String)
    (val : AttributeValue) :
    o.find_entities_by_attribute_indexed name val =
      (idxIds o name val).filterMap (fun id => lookupA o.entities id) := by
  unfold Ontology.find_entities_by_attribute_indexed idxIds bucketIds
  cases h1 : lookupA o.attribute_index name with
  | none => simp [h1, lookupA]
  | some valMap =>
      cases h2 : lookupA valMap val with
      | none => simp [h2]
      | some ids => simp [h2]

theorem get_neighbors_eq (o : Ontology) (v : Nat) :
    o.get_neighbors v =
      (neighborsOf o v).filterMap (fun id => lookupA o.entities id) := by
  unfold Ontology.get_neighbors neighborsOf
  cases h : lookupA o.adjacency_list v <;> simp [h]

theorem graphInv_new : GraphInv Ontology.new := by
  refine ⟨?_, ?_, ?_, ?_, ?_⟩ <;>
    simp [Ontology.new, neighborsOf, lookupA]

theorem idxInv_new : IdxInv Ontology.new := by
  intro name val id
  simp [idxIds, bucketIds, Ontology.new, lookupA]

theorem graphInv_add_concept (o : Ontology) (hi : GraphInv o)
    (name : String) (parents : List Nat)
    (attrs : List (String × AttributeType)) :
    GraphInv (o.add_concept name parents attrs).1 := by
  obtain ⟨hk, hf, hn, hr, ha⟩ := hi
  refine ⟨?_, ?_, ?_, ?_, ?_⟩ <;>
    simp only [Ontology.add_concept, neighborsOf] <;>
    first
      | exact hk
      | exact hn
      | (intro p hp; exact Nat.lt_succ_of_lt (hf p hp))
      | (intro p hp; exact Nat.lt_succ_of_lt (hr p hp))
      | exact ha

theorem entities_add_entity (o : Ontology) (hi : GraphInv o) (cid : Nat)
    (avs : List (String × AttributeValue)) :
    (o.add_entity cid avs).1.entities =
      o.entities ++ [(o.next_id,
        { id := o.next_id, concept_id := cid, attribute_values := avs })] := by
  have hfresh : lookupA o.entities o.next_id = none := by
    rw [lookupA_eq_none_iff]
    intro p hp
    exact Nat.ne_of_lt (hi.entFresh p hp)
  simp only [Ontology.add_entity]
  exact insertA_of_fresh hfresh _

theorem graphInv_add_entity (o : Ontology) (hi : GraphInv o) (cid : Nat)
    (avs : List (String × AttributeValue)) :
    GraphInv (o.add_entity cid avs).1 := by
  have hent := entities_add_entity o hi cid avs
  obtain ⟨hk, hf, hn, hr, ha⟩ := hi
  refine ⟨?_, ?_, ?_, ?_, ?_⟩
  · rw [hent]
    intro p hp
    rcases List.mem_append.mp hp with h | h
    · exact hk p h
    · simp only [List.mem_singleton] at h
      subst h
      rfl
  · rw [hent]
    simp only [Ontology.add_entity]
    intro p hp
    rcases List.mem_append.mp hp with h | h
    · exact Nat.lt_succ_of_lt (hf p h)
    · simp only [List.mem_singleton] at h
      subst h
      exact Nat.lt_succ_self _
  · rw [hent]
    simp only [List.map_append, List.map_cons, List.map_nil]
    rw [List.nodup_append]
    refine ⟨hn, List.nodup_singleton _, ?_⟩
    intro x hx
    simp only [List.mem_singleton]
    intro hx2
    subst hx2
    rcases List.mem_map.mp hx with ⟨p, hp, hpx⟩
    exact Nat.ne_of_lt (hf p hp) hpx
  · simp only [Ontology.add_entity]
    intro p hp
    exact Nat.lt_succ_of_lt (hr p hp)
  · intro v w
    have : neighborsOf (o.add_entity cid avs).1 v = neighborsOf o v := by
      simp [Ontology.add_entity, neighborsOf]
    rw [this]
    simp only [Ontology.add_entity]
    exact ha v w

theorem graphInv_add_relationship (o : Ontology) (hi : GraphInv o)
    (f t : Nat) (rt : RelationshipType) :
    GraphInv (o.add_relationship f t rt).1 := by
  have hfresh : lookupA o.relationships o.next_id = none := by
    rw [lookupA_eq_none_iff]
    intro p hp
    exact Nat.ne_of_lt (hi.relFresh p hp)
  have hrel : (o.add_relationship f t rt).1.relationships =
      o.relationships ++ [(o.next_id,
        { id := o.next_id, from_entity := f, to_entity := t,
          rel_type := rt })] := by
    simp only [Ontology.add_relationship]
    exact insertA_of_fresh hfresh _
  obtain ⟨hk, hf', hn, hr, ha⟩ := hi
  refine ⟨?_, ?_, ?_, ?_, ?_⟩
  · simp only [Ontology.add_relationship]
    exact hk
  · simp only [Ontology.add_relationship]
    intro p hp
    exact Nat.lt_succ_of_lt (hf' p hp)
  · simp only [Ontology.add_relationship]
    exact hn
  · rw [hrel]
    simp only [Ontology.add_relationship]
    intro p hp
    rcases List.mem_append.mp hp with h | h
    · exact Nat.lt_succ_of_lt (hr p h)
    · simp only [List.mem_singleton] at h
      subst h
      exact Nat.lt_succ_self _
  · intro v w
    rw [hrel]
    have hnb : neighborsOf (o.add_relationship f t rt).1 v =
        if f = v then
          insertS ((lookupA o.adjacency_list f).getD []) t
        else neighborsOf o v := by
      simp only [Ontology.add_relationship, neighborsOf]
      rw [lookupA_insertA]
      by_cases hfv : f = v <;> simp [hfv]
    rw [hnb]
    by_cases hfv : f = v
    · subst hfv
      simp only [eq_self_iff_true, if_true]
      rw [mem_insertS]
      constructor
      · rintro (h | rfl)
        · rcases (ha f w).mp h with ⟨p, hp, h1, h2⟩
          exact ⟨p, List.mem_append.mpr (Or.inl hp), h1, h2⟩
        · exact ⟨_, List.mem_append.mpr (Or.inr (List.mem_singleton_self _)),
            rfl, rfl⟩
      · rintro ⟨p, hp, h1, h2⟩
        rcases List.mem_append.mp hp with h | h
        · exact Or.inl ((ha f w).mpr ⟨p, h, h1, h2⟩)
        · simp only [List.mem_singleton] at h
          subst h
          exact Or.inr h2.symm
    · simp only [if_neg hfv]
      rw [ha v w]
      constructor
      · rintro ⟨p, hp, h1, h2⟩
        exact ⟨p, List.mem_append.mpr (Or.inl hp), h1, h2⟩
      · rintro ⟨p, hp, h1, h2⟩
        rcases List.mem_append.mp hp with h | h
        · exact ⟨p, h, h1, h2⟩
        · simp only [List.mem_singleton] at h
          subst h
          exact absurd h1 hfv

theorem graphInv_applyOp (o : Ontology) (hi : GraphInv o) (op : Op) :
    GraphInv (applyOp o op) := by
  cases op with
  | addConcept name parents attrs => exact graphInv_add_concept o hi _ _ _
  | addEntity cid avs => exact graphInv_add_entity o hi _ _
  | addRelationship f t rt => exact graphInv_add_relationship o hi _ _ _

theorem graphInv_applyOps (o : Ontology) (hi : GraphInv o) (ops : List Op) :
    GraphInv (applyOps o ops) := by
  induction ops generalizing o with
  | nil => exact hi
  | cons op rest ih => exact ih _ (graphInv_applyOp o hi op)

theorem lookupA_append {α β : Type} [DecidableEq α]
    (m m' : List (α × β)) (k : α) :
    lookupA (m ++ m') k =
      (match lookupA m k with
       | some v => some v
       | none => lookupA m' k) := by
  induction m with
  | nil => simp [lookupA]
  | cons p rest ih =>
      obtain ⟨a, b⟩ := p
      by_cases hak : a = k <;> simp [lookupA, hak, ih]

theorem idxInv_applyOp (o : Ontology) (hg : GraphInv o) (hx : IdxInv o)
    (op : Op) (hwf : opWf op) : IdxInv (applyOp o op) := by
  cases op with
  | addConcept name parents attrs =>
      intro nm vl id
      have hidx : idxIds (applyOp o (Op.addConcept name parents attrs)) nm vl =
          idxIds o nm vl := by
        simp [applyOp, Ontology.add_concept, idxIds]
      rw [hidx]
      simpa [applyOp, Ontology.add_concept] using hx nm vl id
  | addRelationship f t rt =>
      intro nm vl id
      have hidx : idxIds (applyOp o (Op.addRelationship f t rt)) nm vl =
          idxIds o nm vl := by
        simp [applyOp, Ontology.add_relationship, idxIds]
      rw [hidx]
      simpa [applyOp, Ontology.add_relationship] using hx nm vl id
  | addEntity cid avs =>
      intro nm vl idv
      have hkeys : (avs.map Prod.fst).Nodup := hwf
      have hent := entities_add_entity o hg cid avs
      have hfresh : lookupA o.entities o.next_id = none := by
        rw [lookupA_eq_none_iff]
        intro p hp
        exact Nat.ne_of_lt (hg.entFresh p hp)
      have hidx : ∀ x, x ∈ idxIds (applyOp o (Op.addEntity cid avs)) nm vl ↔
          x ∈ idxIds o nm vl ∨ (x = o.next_id ∧ (nm, vl) ∈ avs) := by
        intro x
        simpa [applyOp, Ontology.add_entity, idxIds] using
          mem_bucketIds_fold avs o.attribute_index nm vl o.next_id x
      rw [hidx]
      have hENT : (applyOp o (Op.addEntity cid avs)).entities =
          o.entities ++ [(o.next_id,
            ({ id := o.next_id, concept_id := cid,
               attribute_values := avs } : Entity))] := hent
      by_cases hid : idv = o.next_id
      · subst hid
        have hlook2 :
            lookupA (applyOp o (Op.addEntity cid avs)).entities o.next_id =
              some ({ id := o.next_id, concept_id := cid,
                      attribute_values := avs } : Entity) := by
          rw [hENT, lookupA_append, hfresh]
          simp [lookupA]
        constructor
        · rintro (h | ⟨-, hmem⟩)
          · rcases (hx nm vl o.next_id).mp h with ⟨e, he, -⟩
            rw [hfresh] at he
            cases he
          · exact ⟨_, hlook2, lookupA_of_mem_nodup hkeys hmem⟩
        · rintro ⟨e, he, hval⟩
          rw [hlook2] at he
          cases he
          exact Or.inr ⟨rfl, lookupA_mem hval⟩
      · have hlook2 : lookupA (applyOp o (Op.addEntity cid avs)).entities idv =
            lookupA o.entities idv := by
          rw [hENT, lookupA_append]
          cases h : lookupA o.entities idv with
          | some e => rfl
          | none => simp [lookupA, Ne.symm hid]
        rw [hlook2]
        constructor
        · rintro (h | ⟨h, -⟩)
          · exact (hx nm vl idv).mp h
          · exact absurd h hid
        · intro h
          exact Or.inl ((hx nm vl idv).mpr h)

theorem idxInv_applyOps (o : Ontology) (hg : GraphInv o) (hx : IdxInv o)
    (ops : List Op) (hwf : ∀ op ∈ ops, opWf op) : IdxInv (applyOps o ops) := by
  induction ops generalizing o with
  | nil => exact hx
  | cons op rest ih =>
      exact ih _ (graphInv_applyOp o hg op)
        (idxInv_applyOp o hg hx op (hwf op (List.mem_cons_self _ _)))
        (fun op' h' => hwf op' (List.mem_cons_of_mem _ h'))

/-- C1. Attribute-index consistency: after any sequence of `add_*` calls
(each `add_entity` receiving a Rust `HashMap`, i.e. distinct attribute
names), `find_entities_by_attribute_indexed(name, val)` returns exactly the
entities of the graph whose value under `name` equals `val`, and returns the
empty sequence — not an error — for a pair held by no entity. -/
theorem C1_attribute_index_consistency (ops : List Op)
    (hwf : ∀ op ∈ ops, opWf op) (name : String) (val : AttributeValue) :
    (∀ ent : Entity,
      ent ∈ (applyOps Ontology.new ops).find_entities_by_attribute_indexed
          name val ↔
        ent ∈ allEntities (applyOps Ontology.new ops) ∧
          lookupA ent.attribute_values name = some val) ∧
    ((∀ ent ∈ allEntities (applyOps Ontology.new ops),
        lookupA ent.attribute_values name ≠ some val) →
      (applyOps Ontology.new ops).find_entities_by_attribute_indexed
          name val = []) := by
  have hg := graphInv_applyOps Ontology.new graphInv_new ops
  have hx := idxInv_applyOps Ontology.new graphInv_new idxInv_new ops hwf
  have hmain : ∀ ent : Entity,
      ent ∈ (applyOps Ontology.new ops).find_entities_by_attribute_indexed
          name val ↔
        ent ∈ allEntities (applyOps Ontology.new ops) ∧
          lookupA ent.attribute_values name = some val := by
    intro ent
    rw [find_indexed_eq_filterMap, List.mem_filterMap]
    constructor
    · rintro ⟨a, ha, he⟩
      rcases (hx name val a).mp ha with ⟨e, he', hval⟩
      rw [he] at he'
      cases he'
      refine ⟨List.mem_map.mpr ⟨(a, ent), lookupA_mem he, rfl⟩, hval⟩
    · rintro ⟨hmem, hval⟩
      rcases List.mem_map.mp hmem with ⟨p, hp, hpe⟩
      have hl : lookupA (applyOps Ontology.new ops).entities p.1 = some p.2 :=
        lookupA_of_mem_nodup hg.entNodup hp
      rw [hpe] at hl
      exact ⟨p.1, (hx name val p.1).mpr ⟨ent, hl, hval⟩, hl⟩
  refine ⟨hmain, fun hnone => ?_⟩
  rw [List.eq_nil_iff_forall_not_mem]
  intro ent hent
  rcases (hmain ent).mp hent with ⟨hm, hv⟩
  exact hnone ent hm hv

theorem C1_attribute_index_consistency_witness :
    (opWf (Op.addConcept "Person" [] [("age", AttributeType.integer)]) ∧
      opWf (Op.addEntity 1 [("age", AttributeValue.integer 30)])) ∧
    (({ id := 2, concept_id := 1,
        attribute_values := [("age", AttributeValue.integer 30)] } : Entity) ∈
        (applyOps Ontology.new personOps).find_entities_by_attribute_indexed
          "age" (AttributeValue.integer 30) ↔
      ({ id := 2, concept_id := 1,
         attribute_values := [("age", AttributeValue.integer 30)] } : Entity) ∈
          allEntities (applyOps Ontology.new personOps) ∧
        lookupA [("age", AttributeValue.integer 30)] "age" =
          some (AttributeValue.integer 30)) :=
  ⟨by decide,
   (C1_attribute_index_consistency personOps (by decide) "age"
      (AttributeValue.integer 30)).1
     { id := 2, concept_id := 1,
       attribute_values := [("age", AttributeValue.integer 30)] }⟩

/-- C6 (counterexample). The claim fails on the code when a relationship has
a dangling `to_entity`: after `add_relationship(1, 2, FriendOf)` on the empty
graph the relationship table holds the edge `1 → 2`, yet `get_neighbors(1)`
is empty rather than the one-element to-set `{2}`, because the Rust code
filters adjacency ids through `entities.get` and id 2 is not an entity. -/
theorem C6_adjacency_counterexample :
    ((danglingGraph.relationships.map Prod.snd).filter
        (fun r => decide (r.from_entity = 1))).map Relationship.to_entity =
        [2] ∧
      (danglingGraph.get_neighbors 1).map Entity.id = [] := by
  decide

/-- C6 (amended). Adjacency consistency amended for dangling endpoints:
after any sequence of `add_*` calls, `get_neighbors(v)` returns exactly the
entities that exist in the entity map and whose id is a `to_entity` of some
relationship with `from_entity = v`; `to_entity` ids that are not entities
are silently dropped (and the result is empty when `v` has no outgoing
relationship to an existing entity). -/
theorem C6_adjacency_consistency_amended (ops : List Op) (v : Nat)
    (ent : Entity) :
    ent ∈ (applyOps Ontology.new ops).get_neighbors v ↔
      lookupA (applyOps Ontology.new ops).entities ent.id = some ent ∧
        ∃ p ∈ (applyOps Ontology.new ops).relationships,
          (p : Nat × Relationship).2.from_entity = v ∧
            p.2.to_entity = ent.id := by
  have hg := graphInv_applyOps Ontology.new graphInv_new ops
  rw [get_neighbors_eq, List.mem_filterMap]
  constructor
  · rintro ⟨w, hw, he⟩
    have hid : ent.id = w := hg.entKey _ (lookupA_mem he)
    rw [hid]
    exact ⟨he, (hg.adjOK v w).mp hw⟩
  · rintro ⟨he, hp⟩
    exact ⟨ent.id, (hg.adjOK v ent.id).mpr hp, he⟩

theorem C7_attr_filter_semantics_witness :
    variantIndex (AttributeValue.integer 1) ≠
        variantIndex (AttributeValue.string "x") ∧
      compare_attribute_values (AttributeValue.integer 1) ComparisonOp.eq
        (AttributeValue.string "x") = false :=
  ⟨by decide,
   (C7_attr_filter_semantics Ontology.new
     ⟨"a", ComparisonOp.eq, AttributeValue.integer 0⟩).2.1
     (AttributeValue.integer 1) (AttributeValue.string "x") ComparisonOp.eq
     (by decide)⟩

/-! ## Hop-distance theory -/

theorem mem_ball_succ (o : Ontology) (s v n : Nat) :
    v ∈ ball o s (n + 1) ↔
      v ∈ ball o s n ∨ ∃ u ∈ ball o s n, v ∈ neighborsOf o u := by
  show v ∈ ball o s n ++ ((ball o s n).map (neighborsOf o)).flatten ↔ _
  rw [List.mem_append, List.mem_flatten]
  constructor
  · rintro (h | ⟨l, hl, hv⟩)
    · exact Or.inl h
    · rcases List.mem_map.mp hl with ⟨u, hu, rfl⟩
      exact Or.inr ⟨u, hu, hv⟩
  · rintro (h | ⟨u, hu, hv⟩)
    · exact Or.inl h
    · exact Or.inr ⟨neighborsOf o u, List.mem_map.mpr ⟨u, hu, rfl⟩, hv⟩

theorem ball_subset_succ (o : Ontology) (s n : Nat) :
    ball o s n ⊆ ball o s (n + 1) := by
  intro v hv
  exact (mem_ball_succ o s v n).mpr (Or.inl hv)

theorem ball_mono (o : Ontology) (s : Nat) {n m : Nat} (h : n ≤ m) :
    ball o s n ⊆ ball o s m := by
  induction m with
  | zero =>
      have : n = 0 := Nat.le_zero.mp h
      subst this
      exact fun v hv => hv
  | succ m ih =>
      rcases Nat.lt_or_ge n (m + 1) with h' | h'
      · exact fun v hv =>
          ball_subset_succ o s m (ih (Nat.lt_succ_iff.mp h') hv)
      · have : n = m + 1 := Nat.le_antisymm h h'
        subst this
        exact fun v hv => hv

theorem self_mem_ball (o : Ontology) (s n : Nat) : s ∈ ball o s n :=
  ball_mono o s (Nat.zero_le n) (by simp [ball])

theorem mem_ball_step (o : Ontology) {s u v n : Nat} (hu : u ∈ ball o s n)
    (hv : v ∈ neighborsOf o u) : v ∈ ball o s (n + 1) :=
  (mem_ball_succ o s v n).mpr (Or.inr ⟨u, hu, hv⟩)

theorem exists_isDist_of_mem_ball (o : Ontology) {s v n : Nat}
    (h : v ∈ ball o s n) : ∃ m, m ≤ n ∧ IsDist o s v m := by
  induction n with
  | zero => exact ⟨0, Nat.le_refl 0, h, by omega⟩
  | succ n ih =>
      by_cases hv : v ∈ ball o s n
      · rcases ih hv with ⟨m, hm, hd⟩
        exact ⟨m, Nat.le_succ_of_le hm, hd⟩
      · refine ⟨n + 1, Nat.le_refl _, h, ?_⟩
        intro m hm hmem
        exact hv (ball_mono o s (Nat.lt_succ_iff.mp hm) hmem)

theorem isDist_unique (o : Ontology) {s v n m : Nat} (hn : IsDist o s v n)
    (hm : IsDist o s v m) : n = m := by
  rcases Nat.lt_trichotomy n m with h | h | h
  · exact absurd hn.1 (hm.2 n h)
  · exact h
  · exact absurd hm.1 (hn.2 m h)

theorem isDist_zero (o : Ontology) {s v : Nat} (h : IsDist o s v 0) :
    v = s := by
  have := h.1
  simpa [ball] using this

theorem isDist_self (o : Ontology) (s : Nat) : IsDist o s s 0 :=
  ⟨by simp [ball], by omega⟩

theorem isDist_succ_pred (o : Ontology) {s v n : Nat}
    (h : IsDist o s v (n + 1)) :
    ∃ u, IsDist o s u n ∧ v ∈ neighborsOf o u := by
  rcases (mem_ball_succ o s v n).mp h.1 with hv | ⟨u, hu, hv⟩
  · exact absurd hv (h.2 n (Nat.lt_succ_self n))
  · rcases exists_isDist_of_mem_ball o hu with ⟨m, hm, hd⟩
    rcases Nat.lt_or_ge m n with hlt | hge
    · exfalso
      have : v ∈ ball o s (m + 1) := mem_ball_step o hd.1 hv
      exact h.2 (m + 1) (by omega) this
    · have : m = n := Nat.le_antisymm hm hge
      subst this
      exact ⟨u, hd, hv⟩

theorem ball_trans (o : Ontology) {s u v n k : Nat} (hu : u ∈ ball o s n)
    (hv : v ∈ ball o u k) : v ∈ ball o s (n + k) := by
  induction k generalizing v with
  | zero =>
      have : v = u := by simpa [ball] using hv
      subst this
      exact hu
  | succ k ih =>
      rcases (mem_ball_succ o u v k).mp hv with h | ⟨w, hw, hvw⟩
      · exact ball_subset_succ o s (n + k) (ih h)
      · exact mem_ball_step o (ih hw) hvw

theorem neighborsOf_subset_adjUniv (o : Ontology) (u : Nat) :
    neighborsOf o u ⊆ adjUniv o := by
  intro w hw
  unfold neighborsOf at hw
  cases h : lookupA o.adjacency_list u with
  | none => rw [h] at hw; cases hw
  | some l =>
      rw [h] at hw
      simp only [Option.getD_some] at hw
      unfold adjUniv
      rw [List.mem_flatten]
      exact ⟨l, List.mem_map.mpr ⟨(u, l), lookupA_mem h, rfl⟩, hw⟩

theorem isDist_le_univ_length (o : Ontology) {s v n : Nat}
    (h : IsDist o s v n) : n ≤ (adjUniv o).length := by
  have key : ∀ n v, IsDist o s v n →
      ∃ l : List Nat, l.length = n ∧ l.Nodup ∧
        ∀ x ∈ l, x ∈ adjUniv o ∧ ∃ m, 1 ≤ m ∧ m ≤ n ∧ IsDist o s x m := by
    intro n
    induction n with
    | zero => exact fun v _ => ⟨[], rfl, List.nodup_nil, by simp⟩
    | succ n ih =>
        intro v hv
        rcases isDist_succ_pred o hv with ⟨u, hu, hvu⟩
        rcases ih u hu with ⟨l, hlen, hnd, hprop⟩
        refine ⟨v :: l, by simp [hlen], ?_, ?_⟩
        · rw [List.nodup_cons]
          refine ⟨fun hvl => ?_, hnd⟩
          rcases hprop v hvl with ⟨-, m, -, hm2, hm3⟩
          have := isDist_unique o hv hm3
          omega
        · intro x hx
          rcases List.mem_cons.mp hx with rfl | hx
          · exact ⟨neighborsOf_subset_adjUniv o u hvu, n + 1, by omega,
              Nat.le_refl _, hv⟩
          · rcases hprop x hx with ⟨ha, m, hm1, hm2, hm3⟩
            exact ⟨ha, m, hm1, by omega, hm3⟩
  rcases key n v h with ⟨l, hlen, hnd, hprop⟩
  have hsub : l ⊆ adjUniv o := fun x hx => (hprop x hx).1
  have := (List.subperm_of_subset hnd hsub).length_le
  omega

/-- Membership in `ball _ _ d` is exactly "shortest hop-distance at most
`d`". -/
theorem mem_ball_iff_exists_isDist (o : Ontology) (s v d : Nat) :
    v ∈ ball o s d ↔ ∃ n, n ≤ d ∧ IsDist o s v n := by
  constructor
  · exact fun h => exists_isDist_of_mem_ball o h
  · rintro ⟨n, hn, hd⟩
    exact ball_mono o s hn hd.1

/-! ## Queue-level lemmas for the traversal loops -/

theorem twoLevel_singleton (u du : Nat) : TwoLevel [(u, du)] :=
  ⟨du, [(u, du)], [], rfl, by simp, by simp⟩

theorem twoLevel_bounds {u du : Nat} {q : List (Nat × Nat)}
    (h : TwoLevel ((u, du) :: q)) :
    ∀ p ∈ (u, du) :: q, du ≤ (p : Nat × Nat).2 ∧ p.2 ≤ du + 1 := by
  obtain ⟨d0, lo, hi, heq, hlo, hhi⟩ := h
  cases lo with
  | nil =>
      simp only [List.nil_append] at heq
      have h0 : (u, du) ∈ hi := by
        rw [← heq]
        exact List.mem_cons_self _ _
      have hdu : du = d0 + 1 := hhi (u, du) h0
      intro p hp
      have hp' : p ∈ hi := by
        rw [← heq]
        exact hp
      have := hhi p hp'
      omega
  | cons p0 lo' =>
      simp only [List.cons_append] at heq
      injection heq with h1 h2
      have hdu : du = d0 := by
        have := hlo p0 (List.mem_cons_self _ _)
        rw [← h1] at this
        exact this
      intro p hp
      rcases List.mem_cons.mp hp with rfl | hp
      · exact ⟨Nat.le_refl _, Nat.le_succ _⟩
      · rw [h2] at hp
        rcases List.mem_append.mp hp with hp | hp
        · have := hlo p (List.mem_cons_of_mem _ hp)
          omega
        · have := hhi p hp
          omega

theorem twoLevel_tail {p0 : Nat × Nat} {q : List (Nat × Nat)}
    (h : TwoLevel (p0 :: q)) : TwoLevel q := by
  obtain ⟨d0, lo, hi, heq, hlo, hhi⟩ := h
  cases lo with
  | nil =>
      simp only [List.nil_append] at heq
      refine ⟨d0 + 1, q, [], by simp, ?_, by simp⟩
      intro p hp
      have : p ∈ hi := by
        rw [← heq]
        exact List.mem_cons_of_mem _ hp
      exact hhi p this
  | cons p0' lo' =>
      simp only [List.cons_append] at heq
      injection heq with h1 h2
      exact ⟨d0, lo', hi, h2,
        fun p hp => hlo p (List.mem_cons_of_mem _ hp), hhi⟩

theorem twoLevel_expand {u du : Nat} {q : List (Nat × Nat)}
    (h : TwoLevel ((u, du) :: q)) (new : List Nat) :
    TwoLevel (q ++ new.map (fun x => (x, du + 1))) := by
  obtain ⟨d0, lo, hi, heq, hlo, hhi⟩ := h
  cases lo with
  | nil =>
      simp only [List.nil_append] at heq
      have h0 : (u, du) ∈ hi := by
        rw [← heq]
        exact List.mem_cons_self _ _
      have hdu : du = d0 + 1 := hhi (u, du) h0
      refine ⟨du, q, new.map (fun x => (x, du + 1)), rfl, ?_, ?_⟩
      · intro p hp
        have hp' : p ∈ hi := by
          rw [← heq]
          exact List.mem_cons_of_mem _ hp
        have := hhi p hp'
        omega
      · intro p hp
        rcases List.mem_map.mp hp with ⟨x, -, rfl⟩
        rfl
  | cons p0 lo' =>
      simp only [List.cons_append] at heq
      injection heq with h1 h2
      have hdu : du = d0 := by
        have := hlo p0 (List.mem_cons_self _ _)
        rw [← h1] at this
        exact this
      subst h2
      refine ⟨d0, lo', hi ++ new.map (fun x => (x, du + 1)),
        by rw [List.append_assoc], fun p hp => hlo p (List.mem_cons_of_mem _ hp), ?_⟩
      intro p hp
      rcases List.mem_append.mp hp with hp | hp
      · exact hhi p hp
      · rcases List.mem_map.mp hp with ⟨x, -, rfl⟩
        show du + 1 = d0 + 1
        omega

theorem bfsFold_spec (d : Nat) (ns : List Nat) :
    ∀ q0 vis0, ∃ new : List Nat,
      bfsFold d ns (q0, vis0) =
        (q0 ++ new.map (fun x => (x, d + 1)), vis0 ++ new) ∧
      new.Nodup ∧ (∀ x ∈ new, x ∈ ns ∧ x ∉ vis0) ∧
      (∀ x ∈ ns, x ∈ vis0 ∨ x ∈ new) := by
  induction ns with
  | nil =>
      exact fun q0 vis0 =>
        ⟨[], by simp [bfsFold], List.nodup_nil, by simp, by simp⟩
  | cons nb ns ih =>
      intro q0 vis0
      by_cases hnb : nb ∈ vis0
      · have heq : bfsFold d (nb :: ns) (q0, vis0) =
            bfsFold d ns (q0, vis0) := by
          simp [bfsFold, hnb]
        rw [heq]
        rcases ih q0 vis0 with ⟨new, h1, h2, h3, h4⟩
        refine ⟨new, h1, h2,
          fun x hx => ⟨List.mem_cons_of_mem _ (h3 x hx).1, (h3 x hx).2⟩,
          fun x hx => ?_⟩
        rcases List.mem_cons.mp hx with rfl | hx
        · exact Or.inl hnb
        · exact h4 x hx
      · have heq : bfsFold d (nb :: ns) (q0, vis0) =
            bfsFold d ns (q0 ++ [(nb, d + 1)], vis0 ++ [nb]) := by
          simp [bfsFold, hnb]
        rw [heq]
        rcases ih (q0 ++ [(nb, d + 1)]) (vis0 ++ [nb]) with ⟨new, h1, h2, h3, h4⟩
        refine ⟨nb :: new, ?_, ?_, ?_, ?_⟩
        · rw [h1]
          simp
        · rw [List.nodup_cons]
          refine ⟨fun h => ?_, h2⟩
          exact (h3 nb h).2
            (List.mem_append.mpr (Or.inr (List.mem_singleton_self _)))
        · intro x hx
          rcases List.mem_cons.mp hx with rfl | hx
          · exact ⟨List.mem_cons_self _ _, hnb⟩
          · exact ⟨List.mem_cons_of_mem _ (h3 x hx).1,
              fun hv => (h3 x hx).2 (List.mem_append.mpr (Or.inl hv))⟩
        · intro x hx
          rcases List.mem_cons.mp hx with rfl | hx
          · exact Or.inr (List.mem_cons_self _ _)
          · rcases h4 x hx with h | h
            · rcases List.mem_append.mp h with h | h
              · exact Or.inl h
              · simp only [List.mem_singleton] at h
                subst h
                exact Or.inr (List.mem_cons_self _ _)
            · exact Or.inr (List.mem_cons_of_mem _ h)

theorem filter_unseen_lt (l vis : List Nat) (a : Nat) (ha : a ∈ l)
    (hv : a ∉ vis) :
    (l.filter (fun x => decide (x ∉ vis ++ [a]))).length <
      (l.filter (fun x => decide (x ∉ vis))).length := by
  induction l with
  | nil => cases ha
  | cons b t ih =>
      by_cases hba : b = a
      · subst hba
        have heq1 : (b :: t).filter (fun x => decide (x ∉ vis ++ [b])) =
            t.filter (fun x => decide (x ∉ vis ++ [b])) := by
          simp
        have heq2 : (b :: t).filter (fun x => decide (x ∉ vis)) =
            b :: t.filter (fun x => decide (x ∉ vis)) := by
          simp [hv]
        rw [heq1, heq2]
        have hle : (t.filter (fun x => decide (x ∉ vis ++ [b]))).length ≤
            (t.filter (fun x => decide (x ∉ vis))).length := by
          rw [← List.countP_eq_length_filter, ← List.countP_eq_length_filter]
          apply List.countP_mono_left
          intro x _ hx
          simp only [decide_eq_true_eq] at hx ⊢
          intro hmem
          exact hx (List.mem_append.mpr (Or.inl hmem))
        simp only [List.length_cons]
        omega
      · have ha' : a ∈ t := by
          rcases List.mem_cons.mp ha with h | h
          · exact absurd h.symm hba
          · exact h
        by_cases hbv : b ∈ vis
        · have heq1 : (b :: t).filter (fun x => decide (x ∉ vis ++ [a])) =
              t.filter (fun x => decide (x ∉ vis ++ [a])) := by
            simp [hbv]
          have heq2 : (b :: t).filter (fun x => decide (x ∉ vis)) =
              t.filter (fun x => decide (x ∉ vis)) := by
            simp [hbv]
          rw [heq1, heq2]
          exact ih ha'
        · have heq1 : (b :: t).filter (fun x => decide (x ∉ vis ++ [a])) =
              b :: t.filter (fun x => decide (x ∉ vis ++ [a])) := by
            simp [hbv, hba]
          have heq2 : (b :: t).filter (fun x => decide (x ∉ vis)) =
              b :: t.filter (fun x => decide (x ∉ vis)) := by
            simp [hbv]
          rw [heq1, heq2]
          simp only [List.length_cons]
          have := ih ha'
          omega

theorem filter_unseen_append_le (l : List Nat) :
    ∀ (vis new : List Nat), new.Nodup → (∀ x ∈ new, x ∈ l ∧ x ∉ vis) →
    (l.filter (fun x => decide (x ∉ vis ++ new))).length + new.length ≤
      (l.filter (fun x => decide (x ∉ vis))).length := by
  intro vis new
  induction new generalizing vis with
  | nil => simp
  | cons a new ih =>
      intro hnd hsub
      have hal := (hsub a (List.mem_cons_self _ _)).1
      have hav := (hsub a (List.mem_cons_self _ _)).2
      have h1 := filter_unseen_lt l vis a hal hav
      have hnd' := (List.nodup_cons.mp hnd).2
      have hna := (List.nodup_cons.mp hnd).1
      have h2 := ih (vis ++ [a]) hnd' ?sub
      case sub =>
        intro x hx
        refine ⟨(hsub x (List.mem_cons_of_mem _ hx)).1, fun hv => ?_⟩
        rcases List.mem_append.mp hv with h | h
        · exact (hsub x (List.mem_cons_of_mem _ hx)).2 h
        · simp only [List.mem_singleton] at h
          subst h
          exact hna hx
      have hassoc : vis ++ a :: new = (vis ++ [a]) ++ new := by
        simp
      rw [hassoc]
      simp only [List.length_cons]
      omega

theorem twoLevel_nil : TwoLevel [] :=
  ⟨0, [], [], rfl, by simp, by simp⟩

/-! ## The BFS loop satisfies its invariant and drains its queue -/

theorem bfsAux_spec (o : Ontology) (s maxd : Nat) :
    ∀ (fuel : Nat) (q : List (Nat × Nat)) (vis res : List Nat),
      BfsInv o s maxd q vis res →
      loopMeasure o q.length vis < fuel →
      ∃ visF, bfsAux o maxd fuel q vis res = visF ∧
        (∃ t, visF = vis ++ t) ∧ BfsInv o s maxd [] visF visF := by
  intro fuel
  induction fuel with
  | zero =>
      intro q vis res _ hm
      exact absurd hm (by omega)
  | succ fuel ih =>
      intro q vis res hinv hm
      cases q with
      | nil =>
          have hvis : vis = res := by
            have := hinv.hvq
            simpa using this
          refine ⟨vis, ?_, ⟨[], by simp⟩, ?_⟩
          · rw [bfsAux]
            exact hvis.symm
          · obtain ⟨h1, h2, h3, h4, h5, h6, h7⟩ := hinv
            subst hvis
            exact ⟨by simp, h2, by simp, twoLevel_nil, h5, h6,
              fun v m hd hle _ => h7 v m hd hle (by simp)⟩
      | cons p rest =>
          obtain ⟨u, du⟩ := p
          have hdu : IsDist o s u du :=
            (hinv.hdepth (u, du) (List.mem_cons_self _ _)).1
          have hdumax : du ≤ maxd :=
            (hinv.hdepth (u, du) (List.mem_cons_self _ _)).2
          have huvis : u ∈ vis := by
            rw [hinv.hvq]
            exact List.mem_append.mpr (Or.inr (by simp))
          have hbounds := twoLevel_bounds hinv.hlevels
          by_cases hcase : maxd ≤ du
          · -- depth limit reached: record u, do not expand
            have hstep : bfsAux o maxd (fuel + 1) ((u, du) :: rest) vis res =
                bfsAux o maxd fuel rest vis (res ++ [u]) := by
              rw [bfsAux, if_pos hcase]
            have hinv' : BfsInv o s maxd rest vis (res ++ [u]) := by
              obtain ⟨h1, h2, h3, h4, h5, h6, h7⟩ := hinv
              refine ⟨by rw [h1]; simp, h2,
                fun p hp => h3 p (List.mem_cons_of_mem _ hp),
                twoLevel_tail h4, ?_, ?_, ?_⟩
              · intro r hr
                rcases List.mem_append.mp hr with hr | hr
                · exact h5 r hr
                · simp only [List.mem_singleton] at hr
                  subst hr
                  exact ball_mono o s hdumax hdu.1
              · intro r hr n hdn hnlt w hw
                rcases List.mem_append.mp hr with hr | hr
                · exact h6 r hr n hdn hnlt w hw
                · simp only [List.mem_singleton] at hr
                  subst hr
                  have : n = du := isDist_unique o hdn hdu
                  omega
              · intro v m hdm hmmax hprem
                refine h7 v m hdm hmmax ?_
                intro p hp
                rcases List.mem_cons.mp hp with rfl | hp
                · show m ≤ du
                  omega
                · exact hprem p hp
            have hm' : loopMeasure o rest.length vis < fuel := by
              unfold loopMeasure at hm ⊢
              simp only [List.length_cons] at hm
              omega
            rcases ih rest vis (res ++ [u]) hinv' hm' with ⟨visF, ha, hb, hc⟩
            exact ⟨visF, by rw [hstep]; exact ha, hb, hc⟩
          · -- expand the neighbors of u
            have hcaselt : du < maxd := by omega
            rcases bfsFold_spec du (neighborsOf o u) rest vis with
              ⟨new, hfold, hnd, hmem, htot⟩
            have hexp : bfsExpand o du u (rest, vis) =
                (rest ++ new.map (fun x => (x, du + 1)), vis ++ new) := hfold
            have hstep : bfsAux o maxd (fuel + 1) ((u, du) :: rest) vis res =
                bfsAux o maxd fuel (rest ++ new.map (fun x => (x, du + 1)))
                  (vis ++ new) (res ++ [u]) := by
              rw [bfsAux, if_neg hcase, hexp]
            have hxdist : ∀ x ∈ new, IsDist o s x (du + 1) := by
              intro x hx
              refine ⟨mem_ball_step o hdu.1 (hmem x hx).1, ?_⟩
              intro m hmlt hmem'
              rcases exists_isDist_of_mem_ball o hmem' with ⟨m', hm'le, hd'⟩
              refine (hmem x hx).2 (hinv.hbelow x m' hd' (by omega) ?_)
              intro p hp
              have := (hbounds p hp).1
              omega
            have hinv' : BfsInv o s maxd
                (rest ++ new.map (fun x => (x, du + 1))) (vis ++ new)
                (res ++ [u]) := by
              refine ⟨?_, ?_, ?_, twoLevel_expand hinv.hlevels new, ?_, ?_, ?_⟩
              · rw [hinv.hvq]
                simp
                exact (List.map_id new).symm
              · rw [List.nodup_append]
                exact ⟨hinv.hnodup, hnd, fun x hxv hxn => (hmem x hxn).2 hxv⟩
              · intro p hp
                rcases List.mem_append.mp hp with hp | hp
                · exact hinv.hdepth p (List.mem_cons_of_mem _ hp)
                · rcases List.mem_map.mp hp with ⟨x, hx, rfl⟩
                  exact ⟨hxdist x hx, by omega⟩
              · intro r hr
                rcases List.mem_append.mp hr with hr | hr
                · exact hinv.hres r hr
                · simp only [List.mem_singleton] at hr
                  subst hr
                  exact ball_mono o s hdumax hdu.1
              · intro r hr n hdn hnlt w hw
                rcases List.mem_append.mp hr with hr | hr
                · exact List.mem_append.mpr
                    (Or.inl (hinv.hresExp r hr n hdn hnlt w hw))
                · simp only [List.mem_singleton] at hr
                  subst hr
                  rcases htot w hw with h | h
                  · exact List.mem_append.mpr (Or.inl h)
                  · exact List.mem_append.mpr (Or.inr h)
              · intro v m hdm hmmax hprem
                induction m using Nat.strong_induction_on generalizing v with
                | _ m IH =>
                    by_cases hmdu : m ≤ du
                    · refine List.mem_append.mpr
                        (Or.inl (hinv.hbelow v m hdm hmmax ?_))
                      intro p hp
                      rcases List.mem_cons.mp hp with rfl | hp
                      · exact hmdu
                      · exact hprem p (List.mem_append.mpr (Or.inl hp))
                    · obtain ⟨m', rfl⟩ : ∃ m', m = m' + 1 :=
                        ⟨m - 1, by omega⟩
                      rcases isDist_succ_pred o hdm with ⟨w, hdw, hvw⟩
                      have hw : w ∈ vis ++ new :=
                        IH m' (by omega) w hdw (by omega)
                          (fun p hp => by have := hprem p hp; omega)
                      rcases List.mem_append.mp hw with hwv | hwn
                      · have hw2 : w ∈ res ++ ((u, du) :: rest).map Prod.fst := by
                          rw [← hinv.hvq]
                          exact hwv
                        rcases List.mem_append.mp hw2 with hwres | hwq
                        · exact List.mem_append.mpr
                            (Or.inl (hinv.hresExp w hwres m' hdw (by omega) v hvw))
                        · simp only [List.map_cons, List.mem_cons] at hwq
                          rcases hwq with rfl | hwrest
                          · rcases htot v hvw with h | h
                            · exact List.mem_append.mpr (Or.inl h)
                            · exact List.mem_append.mpr (Or.inr h)
                          · rcases List.mem_map.mp hwrest with ⟨p, hp, rfl⟩
                            have hdp :=
                              (hinv.hdepth p (List.mem_cons_of_mem _ hp)).1
                            have h1 : p.2 = m' := isDist_unique o hdp hdw
                            have h2 := hprem p (List.mem_append.mpr (Or.inl hp))
                            omega
                      · have hdw2 := hxdist w hwn
                        have h1 : du + 1 = m' := isDist_unique o hdw2 hdw
                        have h2 := hprem (w, du + 1)
                          (List.mem_append.mpr
                            (Or.inr (List.mem_map.mpr ⟨w, hwn, rfl⟩)))
                        simp only at h2
                        omega
            have hm' : loopMeasure o
                (rest ++ new.map (fun x => (x, du + 1))).length
                (vis ++ new) < fuel := by
              have hsub := filter_unseen_append_le (adjUniv o) vis new hnd
                (fun x hx => ⟨neighborsOf_subset_adjUniv o u (hmem x hx).1,
                  (hmem x hx).2⟩)
              unfold loopMeasure at hm ⊢
              simp only [List.length_append, List.length_map,
                List.length_cons] at hm ⊢
              omega
            rcases ih _ _ _ hinv' hm' with ⟨visF, ha, ⟨t, hb⟩, hc⟩
            refine ⟨visF, by rw [hstep]; exact ha, ⟨new ++ t, ?_⟩, hc⟩
            rw [hb]
            simp

theorem bfs_characterization (o : Ontology) (s d : Nat) :
    ∃ t, bfs o s d = s :: t ∧ (bfs o s d).Nodup ∧
      ∀ v, v ∈ bfs o s d ↔ v ∈ ball o s d := by
  have hinit : BfsInv o s d [(s, 0)] [s] [] := by
    refine ⟨by simp, by simp, ?_, twoLevel_singleton s 0, by simp, by simp, ?_⟩
    · intro p hp
      simp only [List.mem_singleton] at hp
      subst hp
      exact ⟨isDist_self o s, Nat.zero_le d⟩
    · intro v m hd _ hpre
      have h0 : m ≤ 0 := hpre (s, 0) (List.mem_singleton_self _)
      have : m = 0 := by omega
      subst this
      have := isDist_zero o hd
      simp [this]
  have hmeas : loopMeasure o [(s, 0)].length [s] < bfsFuel o := by
    unfold loopMeasure bfsFuel
    have := List.length_filter_le (fun x => decide (x ∉ [s])) (adjUniv o)
    simp only [List.length_singleton]
    omega
  rcases bfsAux_spec o s d (bfsFuel o) [(s, 0)] [s] [] hinit hmeas with
    ⟨visF, heq, ⟨t, ht⟩, hfin⟩
  have hbfs : bfs o s d = visF := heq
  refine ⟨t, by rw [hbfs, ht]; rfl, by rw [hbfs]; exact hfin.hnodup, ?_⟩
  intro v
  rw [hbfs]
  constructor
  · exact fun hv => hfin.hres v hv
  · intro hv
    rcases exists_isDist_of_mem_ball o hv with ⟨m, hle, hd'⟩
    exact hfin.hbelow v m hd' hle (by simp)

/-- C4. BFS depth bound and completeness: `bfs(s, d)` returns `s` first,
contains no duplicate id, and contains exactly the ids whose shortest
directed hop-distance from `s` in the adjacency list is at most `d`; in
particular `bfs(s, 0) = [s]`. -/
theorem C4_bfs_depth_bound_complete (o : Ontology) (s d : Nat) :
    (bfs o s d).head? = some s ∧
    (bfs o s d).Nodup ∧
    (∀ v, v ∈ bfs o s d ↔ ∃ n, n ≤ d ∧ IsDist o s v n) ∧
    bfs o s 0 = [s] := by
  rcases bfs_characterization o s d with ⟨t, heq, hnd, hmem⟩
  refine ⟨by rw [heq]; rfl, hnd, ?_, ?_⟩
  · intro v
    rw [hmem v]
    exact mem_ball_iff_exists_isDist o s v d
  · rcases bfs_characterization o s 0 with ⟨t0, heq0, hnd0, hmem0⟩
    rw [heq0]
    cases t0 with
    | nil => rfl
    | cons a t0' =>
        exfalso
        have ha : a ∈ bfs o s 0 := by
          rw [heq0]
          exact List.mem_cons_of_mem _ (List.mem_cons_self _ _)
        have : a ∈ ball o s 0 := (hmem0 a).mp ha
        have has : a = s := by simpa [ball] using this
        subst has
        rw [heq0] at hnd0
        rcases List.nodup_cons.mp hnd0 with ⟨hns, -⟩
        exact hns (List.mem_cons_self _ _)

/-! ## The shortest-path loop: expansion, reconstruction and invariant -/

theorem spFold_spec (current : Nat) (ns : List Nat) :
    ∀ q0 vis0 preds0, ∃ (new : List Nat) (preds1 : List (Nat × Nat)),
      spFold current ns (q0, vis0, preds0) = (q0 ++ new, vis0 ++ new, preds1) ∧
      new.Nodup ∧ (∀ x ∈ new, x ∈ ns ∧ x ∉ vis0) ∧
      (∀ x ∈ ns, x ∈ vis0 ∨ x ∈ new) ∧
      (∀ x, lookupA preds1 x =
        if x ∈ new then some current else lookupA preds0 x) := by
  induction ns with
  | nil =>
      intro q0 vis0 preds0
      refine ⟨[], preds0, by simp [spFold], List.nodup_nil, by simp, by simp,
        fun x => by simp⟩
  | cons nb ns ih =>
      intro q0 vis0 preds0
      by_cases hnb : nb ∈ vis0
      · have heq : spFold current (nb :: ns) (q0, vis0, preds0) =
            spFold current ns (q0, vis0, preds0) := by
          simp [spFold, hnb]
        rw [heq]
        rcases ih q0 vis0 preds0 with ⟨new, preds1, h1, h2, h3, h4, h5⟩
        refine ⟨new, preds1, h1, h2,
          fun x hx => ⟨List.mem_cons_of_mem _ (h3 x hx).1, (h3 x hx).2⟩,
          fun x hx => ?_, h5⟩
        rcases List.mem_cons.mp hx with rfl | hx
        · exact Or.inl hnb
        · exact h4 x hx
      · have heq : spFold current (nb :: ns) (q0, vis0, preds0) =
            spFold current ns
              (q0 ++ [nb], vis0 ++ [nb], insertA preds0 nb current) := by
          simp [spFold, hnb]
        rw [heq]
        rcases ih (q0 ++ [nb]) (vis0 ++ [nb]) (insertA preds0 nb current) with
          ⟨new, preds1, h1, h2, h3, h4, h5⟩
        refine ⟨nb :: new, preds1, ?_, ?_, ?_, ?_, ?_⟩
        · rw [h1]
          simp
        · rw [List.nodup_cons]
          exact ⟨fun h => (h3 nb h).2
            (List.mem_append.mpr (Or.inr (List.mem_singleton_self _))), h2⟩
        · intro x hx
          rcases List.mem_cons.mp hx with rfl | hx
          · exact ⟨List.mem_cons_self _ _, hnb⟩
          · exact ⟨List.mem_cons_of_mem _ (h3 x hx).1,
              fun hv => (h3 x hx).2 (List.mem_append.mpr (Or.inl hv))⟩
        · intro x hx
          rcases List.mem_cons.mp hx with rfl | hx
          · exact Or.inr (List.mem_cons_self _ _)
          · rcases h4 x hx with h | h
            · rcases List.mem_append.mp h with h | h
              · exact Or.inl h
              · simp only [List.mem_singleton] at h
                subst h
                exact Or.inr (List.mem_cons_self _ _)
            · exact Or.inr (List.mem_cons_of_mem _ h)
        · intro x
          rw [h5 x, lookupA_insertA]
          by_cases hxnb : x = nb
          · subst hxnb
            by_cases hxn : x ∈ new <;> simp [hxn]
          · have h6 : ¬nb = x := fun h => hxnb h.symm
            by_cases hxn : x ∈ new <;>
              simp [hxn, h6, List.mem_cons, hxnb]

theorem validWalk_concat {o : Ontology} :
    ∀ {w : List Nat} {u v : Nat}, ValidWalk o w → w.getLast? = some u →
      v ∈ neighborsOf o u → ValidWalk o (w ++ [v]) := by
  intro w
  induction w with
  | nil =>
      intro u v _ h _
      cases h
  | cons a w ih =>
      intro u v hw hlast hv
      cases w with
      | nil =>
          have hau : a = u := by simpa using hlast
          subst hau
          exact ⟨hv, trivial⟩
      | cons b w' =>
          obtain ⟨hab, hrest⟩ := hw
          have hlast' : (b :: w').getLast? = some u := by
            rw [← hlast]
            exact (List.getLast?_cons_cons).symm
          exact ⟨hab, ih hrest hlast' hv⟩

theorem buildPath_spec (o : Ontology) (s : Nat) (preds : List (Nat × Nat))
    (vis : List Nat)
    (hNoS : lookupA preds s = none)
    (hpreds : ∀ v u, lookupA preds v = some u → v ∈ neighborsOf o u ∧
      v ∈ vis ∧ u ∈ vis ∧ ∀ n, IsDist o s u n → IsDist o s v (n + 1))
    (hvisDist : ∀ v ∈ vis, ∃ n, IsDist o s v n)
    (hTot : ∀ v ∈ vis, v = s ∨ ∃ u, lookupA preds v = some u) :
    ∀ n v, v ∈ vis → IsDist o s v n → ∀ fuel, n < fuel → ∀ acc : List Nat,
      ∃ chain : List Nat, buildPath preds fuel v acc = acc ++ chain ∧
        chain.length = n ∧
        (chain.reverse ++ [v]).head? = some s ∧
        ValidWalk o (chain.reverse ++ [v]) := by
  intro n
  induction n with
  | zero =>
      intro v hv hd fuel hf acc
      have hvs : v = s := isDist_zero o hd
      subst hvs
      obtain ⟨fuel', rfl⟩ : ∃ f', fuel = f' + 1 := ⟨fuel - 1, by omega⟩
      refine ⟨[], ?_, rfl, by simp, ?_⟩
      · rw [buildPath, hNoS]
        simp
      · show ValidWalk o [v]
        trivial
  | succ n ih =>
      intro v hv hd fuel hf acc
      have hvs : v ≠ s := by
        intro h
        subst h
        have := isDist_unique o hd (isDist_self o v)
        omega
      rcases hTot v hv with h | ⟨u, hu⟩
      · exact absurd h hvs
      rcases hpreds v u hu with ⟨hvnb, -, huvis, hexact⟩
      rcases hvisDist u huvis with ⟨k, hk⟩
      have hvk : IsDist o s v (k + 1) := hexact k hk
      have hkn : k = n := by
        have := isDist_unique o hvk hd
        omega
      subst hkn
      obtain ⟨fuel', rfl⟩ : ∃ f', fuel = f' + 1 := ⟨fuel - 1, by omega⟩
      have hstep : buildPath preds (fuel' + 1) v acc =
          buildPath preds fuel' u (acc ++ [u]) := by
        rw [buildPath, hu]
      rcases ih u huvis hk fuel' (by omega) (acc ++ [u]) with
        ⟨chain', heq, hlen, hhead, hwalk⟩
      have hsplit : (u :: chain').reverse ++ [v] =
          (chain'.reverse ++ [u]) ++ [v] := by
        simp
      refine ⟨u :: chain', ?_, by simp [hlen], ?_, ?_⟩
      · rw [hstep, heq]
        simp
      · rw [hsplit]
        rw [List.head?_append_of_ne_nil _ (by simp)]
        simpa using hhead
      · rw [hsplit]
        exact validWalk_concat hwalk (List.getLast?_concat _) hvnb

theorem spLevels_bounds {o : Ontology} {s u du : Nat} {q : List Nat}
    (h : SpLevels o s (u :: q)) (hdu : IsDist o s u du) :
    ∀ v ∈ u :: q, ∀ n, IsDist o s v n → du ≤ n ∧ n ≤ du + 1 := by
  obtain ⟨d0, lo, hi, heq, hlo, hhi⟩ := h
  cases lo with
  | nil =>
      simp only [List.nil_append] at heq
      have h0 : u ∈ hi := by
        rw [← heq]
        exact List.mem_cons_self _ _
      have hdu' : du = d0 + 1 := isDist_unique o hdu (hhi u h0)
      intro v hv n hn
      have hv' : v ∈ hi := by
        rw [← heq]
        exact hv
      have : n = d0 + 1 := isDist_unique o hn (hhi v hv')
      omega
  | cons u0 lo' =>
      simp only [List.cons_append] at heq
      injection heq with h1 h2
      subst h1
      have hdu' : du = d0 := isDist_unique o hdu (hlo u (List.mem_cons_self _ _))
      intro v hv n hn
      rcases List.mem_cons.mp hv with rfl | hv
      · have : n = du := isDist_unique o hn hdu
        omega
      · rw [h2] at hv
        rcases List.mem_append.mp hv with hv | hv
        · have : n = d0 := isDist_unique o hn (hlo v (List.mem_cons_of_mem _ hv))
          omega
        · have : n = d0 + 1 := isDist_unique o hn (hhi v hv)
          omega

theorem spLevels_tail {o : Ontology} {s : Nat} {u : Nat} {q : List Nat}
    (h : SpLevels o s (u :: q)) : SpLevels o s q := by
  obtain ⟨d0, lo, hi, heq, hlo, hhi⟩ := h
  cases lo with
  | nil =>
      simp only [List.nil_append] at heq
      refine ⟨d0 + 1, q, [], by simp, ?_, by simp⟩
      intro v hv
      have : v ∈ hi := by
        rw [← heq]
        exact List.mem_cons_of_mem _ hv
      exact hhi v this
  | cons u0 lo' =>
      simp only [List.cons_append] at heq
      injection heq with h1 h2
      exact ⟨d0, lo', hi, h2,
        fun v hv => hlo v (List.mem_cons_of_mem _ hv), hhi⟩

theorem spLevels_expand {o : Ontology} {s u du : Nat} {q new : List Nat}
    (h : SpLevels o s (u :: q)) (hdu : IsDist o s u du)
    (hnew : ∀ x ∈ new, IsDist o s x (du + 1)) :
    SpLevels o s (q ++ new) := by
  obtain ⟨d0, lo, hi, heq, hlo, hhi⟩ := h
  cases lo with
  | nil =>
      simp only [List.nil_append] at heq
      have h0 : u ∈ hi := by
        rw [← heq]
        exact List.mem_cons_self _ _
      have hdu' : du = d0 + 1 := isDist_unique o hdu (hhi u h0)
      refine ⟨du, q, new, rfl, ?_, hnew⟩
      intro v hv
      have : v ∈ hi := by
        rw [← heq]
        exact List.mem_cons_of_mem _ hv
      have := hhi v this
      rw [hdu']
      exact this
  | cons u0 lo' =>
      simp only [List.cons_append] at heq
      injection heq with h1 h2
      subst h1
      have hdu' : du = d0 :=
        isDist_unique o hdu (hlo u (List.mem_cons_self _ _))
      subst h2
      refine ⟨d0, lo', hi ++ new, by rw [List.append_assoc],
        fun v hv => hlo v (List.mem_cons_of_mem _ hv), ?_⟩
      intro v hv
      rcases List.mem_append.mp hv with hv | hv
      · exact hhi v hv
      · rw [← hdu']
        exact hnew v hv

theorem spAux_spec (o : Ontology) (s endv : Nat) :
    ∀ (fuel : Nat) (q vis : List Nat) (preds : List (Nat × Nat)),
      SpInv o s endv q vis preds →
      loopMeasure o q.length vis < fuel →
      (match spAux o endv fuel q vis preds with
       | some path => ∃ n, IsDist o s endv n ∧ path.length = n + 1 ∧
           path.head? = some s ∧ path.getLast? = some endv ∧ ValidWalk o path
       | none => ¬ Reachable o s endv) := by
  intro fuel
  induction fuel with
  | zero =>
      intro q vis preds _ hm
      exact absurd hm (by omega)
  | succ fuel ih =>
      intro q vis preds hinv hm
      cases q with
      | nil =>
          have hnone : spAux o endv (fuel + 1) [] vis preds = none := by
            rw [spAux]
          rw [hnone]
          show ¬ Reachable o s endv
          rintro ⟨n, hball⟩
          rcases exists_isDist_of_mem_ball o hball with ⟨m, -, hd⟩
          have hvv : endv ∈ vis := hinv.hbelow endv m hd (by simp)
          exact absurd (hinv.hendq hvv) (List.not_mem_nil endv)
      | cons current rest =>
          have hcv : current ∈ vis := by
            rcases hinv.hvq with ⟨pre, hpre⟩
            rw [hpre]
            exact List.mem_append.mpr (Or.inr (List.mem_cons_self _ _))
          by_cases hc : current = endv
          · subst hc
            rcases hinv.hvisDist current hcv with ⟨n, hn⟩
            have hnle : n ≤ (adjUniv o).length := isDist_le_univ_length o hn
            rcases buildPath_spec o s preds vis hinv.hpredsNoS hinv.hpreds
                hinv.hvisDist hinv.hpredTot n current hcv hn (bfsFuel o)
                (by unfold bfsFuel; omega) [current] with
              ⟨chain, heq, hlen, hhead, hwalk⟩
            have hres : spAux o current (fuel + 1) (current :: rest) vis preds =
                some ((buildPath preds (bfsFuel o) current [current]).reverse) := by
              rw [spAux, if_pos rfl]
            rw [hres]
            have hform : (buildPath preds (bfsFuel o) current [current]).reverse =
                chain.reverse ++ [current] := by
              rw [heq]
              simp
            rw [hform]
            exact ⟨n, hn, by simp [hlen], hhead,
              List.getLast?_concat _, hwalk⟩
          · rcases spFold_spec current (neighborsOf o current) rest vis preds with
              ⟨new, preds1, hfold, hnd, hmem, htot, hlk⟩
            have hexp : spExpand o current (rest, vis, preds) =
                (rest ++ new, vis ++ new, preds1) := hfold
            have hstep : spAux o endv (fuel + 1) (current :: rest) vis preds =
                spAux o endv fuel (rest ++ new) (vis ++ new) preds1 := by
              rw [spAux, if_neg hc, hexp]
            rcases hinv.hvisDist current hcv with ⟨du, hdu⟩
            have hqBounds := spLevels_bounds hinv.hlevels hdu
            have hdisj : ∀ x ∈ new, x ∉ vis := fun x hx => (hmem x hx).2
            have hxdist : ∀ x ∈ new, IsDist o s x (du + 1) := by
              intro x hx
              refine ⟨mem_ball_step o hdu.1 (hmem x hx).1, ?_⟩
              intro m hmlt hmem'
              rcases exists_isDist_of_mem_ball o hmem' with ⟨m', hm'le, hd'⟩
              refine (hmem x hx).2 (hinv.hbelow x m' hd' ?_)
              intro v hv nv hnv
              have := (hqBounds v hv nv hnv).1
              omega
            have hnewnotin : ∀ x ∈ new, x ∉ current :: rest := by
              intro x hx hxq
              rcases hinv.hvq with ⟨pre, hpre⟩
              refine hdisj x hx ?_
              rw [hpre]
              exact List.mem_append.mpr (Or.inr hxq)
            have hinv' : SpInv o s endv (rest ++ new) (vis ++ new) preds1 := by
              rcases hinv.hvq with ⟨pre, hpre⟩
              have hdisjPre : ∀ w ∈ pre, w ∉ current :: rest := by
                have hnd2 : (pre ++ current :: rest).Nodup := by
                  rw [← hpre]
                  exact hinv.hnodup
                intro w hw
                exact (List.disjoint_of_nodup_append hnd2) hw
              refine ⟨⟨pre ++ [current], ?_⟩, ?_, ?_, ?_, ?_, ?_, ?_, ?_, ?_,
                ?_, ?_⟩
              · rw [hpre]
                simp
              · rw [List.nodup_append]
                exact ⟨hinv.hnodup, hnd, fun x hxv hxn => hdisj x hxn hxv⟩
              · exact List.mem_append.mpr (Or.inl hinv.hstart)
              · intro v hv
                rcases List.mem_append.mp hv with hv | hv
                · exact hinv.hvisDist v hv
                · exact ⟨du + 1, hxdist v hv⟩
              · rw [hlk s]
                have : s ∉ new := fun h => hdisj s h hinv.hstart
                simp only [this, if_false]
                exact hinv.hpredsNoS
              · exact spLevels_expand hinv.hlevels hdu hxdist
              · intro v u hu
                rw [hlk v] at hu
                by_cases hvn : v ∈ new
                · simp only [hvn, if_true] at hu
                  cases hu
                  refine ⟨(hmem v hvn).1,
                    List.mem_append.mpr (Or.inr hvn),
                    List.mem_append.mpr (Or.inl hcv), ?_⟩
                  intro nn hnn
                  have : nn = du := isDist_unique o hnn hdu
                  subst this
                  exact hxdist v hvn
                · simp only [hvn, if_false] at hu
                  rcases hinv.hpreds v u hu with ⟨h1, h2, h3, h4⟩
                  exact ⟨h1, List.mem_append.mpr (Or.inl h2),
                    List.mem_append.mpr (Or.inl h3), h4⟩
              · intro v hv
                rcases List.mem_append.mp hv with hv | hv
                · rcases hinv.hpredTot v hv with h | ⟨u, hu⟩
                  · exact Or.inl h
                  · refine Or.inr ⟨u, ?_⟩
                    rw [hlk v]
                    have : v ∉ new := fun h => hdisj v h hv
                    simpa [this] using hu
                · refine Or.inr ⟨current, ?_⟩
                  rw [hlk v]
                  simp [hv]
              · intro r hr hrq w hw
                rcases List.mem_append.mp hr with hr | hr
                · by_cases hrc : r = current
                  · subst hrc
                    rcases htot w hw with h | h
                    · exact List.mem_append.mpr (Or.inl h)
                    · exact List.mem_append.mpr (Or.inr h)
                  · have hrrest : r ∉ current :: rest := by
                      intro hmem2
                      rcases List.mem_cons.mp hmem2 with h | h
                      · exact hrc h
                      · exact hrq (List.mem_append.mpr (Or.inl h))
                    exact List.mem_append.mpr
                      (Or.inl (hinv.hpoppedExp r hr hrrest w hw))
                · exact absurd (List.mem_append.mpr (Or.inr hr)) hrq
              · intro hv
                rcases List.mem_append.mp hv with hv | hv
                · have := hinv.hendq hv
                  rcases List.mem_cons.mp this with h | h
                  · exact absurd h.symm hc
                  · exact List.mem_append.mpr (Or.inl h)
                · exact List.mem_append.mpr (Or.inr hv)
              · intro v m hdm hprem
                induction m using Nat.strong_induction_on generalizing v with
                | _ m IH =>
                    by_cases hmdu : m ≤ du
                    · refine List.mem_append.mpr
                        (Or.inl (hinv.hbelow v m hdm ?_))
                      intro u' hu' nu hnu
                      rcases List.mem_cons.mp hu' with rfl | hu'
                      · have : nu = du := isDist_unique o hnu hdu
                        omega
                      · exact hprem u' (List.mem_append.mpr (Or.inl hu')) nu hnu
                    · obtain ⟨m', rfl⟩ : ∃ m', m = m' + 1 :=
                        ⟨m - 1, by omega⟩
                      rcases isDist_succ_pred o hdm with ⟨w, hdw, hvw⟩
                      have hwv : w ∈ vis ++ new :=
                        IH m' (by omega) w hdw
                          (fun u' hu' nu hnu => by
                            have := hprem u' hu' nu hnu
                            omega)
                      rcases List.mem_append.mp hwv with hwv | hwn
                      · have hw2 : w ∈ pre ++ current :: rest := by
                          rw [← hpre]
                          exact hwv
                        rcases List.mem_append.mp hw2 with hwpre | hwq
                        · have hwnotq := hdisjPre w hwpre
                          exact List.mem_append.mpr
                            (Or.inl (hinv.hpoppedExp w hwv hwnotq v hvw))
                        · rcases List.mem_cons.mp hwq with rfl | hwrest
                          · rcases htot v hvw with h | h
                            · exact List.mem_append.mpr (Or.inl h)
                            · exact List.mem_append.mpr (Or.inr h)
                          · have := hprem w
                              (List.mem_append.mpr (Or.inl hwrest)) m' hdw
                            omega
                      · have hdw2 := hxdist w hwn
                        have h1 : du + 1 = m' := isDist_unique o hdw2 hdw
                        have h2 := hprem w
                          (List.mem_append.mpr (Or.inr hwn)) (du + 1) hdw2
                        omega
            have hm' : loopMeasure o (rest ++ new).length (vis ++ new) <
                fuel := by
              have hsub := filter_unseen_append_le (adjUniv o) vis new hnd
                (fun x hx => ⟨neighborsOf_subset_adjUniv o current (hmem x hx).1,
                  (hmem x hx).2⟩)
              unfold loopMeasure at hm ⊢
              simp only [List.length_append, List.length_cons] at hm ⊢
              omega
            have hrec := ih (rest ++ new) (vis ++ new) preds1 hinv' hm'
            rw [hstep]
            exact hrec

/-- C5. Shortest-path correctness: a returned path starts at `a`, ends at
`b`, follows directed adjacency-list edges, and its length minus one is the
minimal directed hop-distance from `a` to `b`; `None` is returned exactly
when `b` is unreachable from `a` along directed edges. -/
theorem C5_shortest_path_correct (o : Ontology) (a b : Nat) :
    (∀ path, shortest_path o a b = some path →
      path.head? = some a ∧ path.getLast? = some b ∧ ValidWalk o path ∧
        ∃ n, IsDist o a b n ∧ path.length = n + 1) ∧
    (shortest_path o a b = none ↔ ¬ Reachable o a b) := by
  have hinit : SpInv o a b [a] [a] [] := by
    refine ⟨⟨[], rfl⟩, by simp, by simp, ?_, rfl, ?_, ?_, ?_, ?_, fun hv => hv,
      ?_⟩
    · intro v hv
      simp only [List.mem_singleton] at hv
      subst hv
      exact ⟨0, isDist_self o v⟩
    · refine ⟨0, [a], [], by simp, ?_, by simp⟩
      intro v hv
      simp only [List.mem_singleton] at hv
      subst hv
      exact isDist_self o v
    · intro v u hu
      simp [lookupA] at hu
    · intro v hv
      simp only [List.mem_singleton] at hv
      exact Or.inl hv
    · intro r hr hrq
      exact absurd hr hrq
    · intro v m hdm hprem
      have h0 : m ≤ 0 :=
        hprem a (List.mem_singleton_self _) 0 (isDist_self o a)
      have : m = 0 := by omega
      subst this
      have := isDist_zero o hdm
      simp [this]
  have hmeas : loopMeasure o [a].length [a] < bfsFuel o := by
    unfold loopMeasure bfsFuel
    have := List.length_filter_le (fun x => decide (x ∉ [a])) (adjUniv o)
    simp only [List.length_singleton]
    omega
  have hspec := spAux_spec o a b (bfsFuel o) [a] [a] [] hinit hmeas
  have hrfl : shortest_path o a b = spAux o b (bfsFuel o) [a] [a] [] := rfl
  constructor
  · intro path hp
    rw [hrfl] at hp
    rw [hp] at hspec
    have hspec' : ∃ n, IsDist o a b n ∧ path.length = n + 1 ∧
        path.head? = some a ∧ path.getLast? = some b ∧ ValidWalk o path :=
      hspec
    rcases hspec' with ⟨n, h1, h2, h3, h4, h5⟩
    exact ⟨h3, h4, h5, n, h1, h2⟩
  · constructor
    · intro hnone
      rw [hrfl] at hnone
      rw [hnone] at hspec
      exact hspec
    · intro hunreach
      rw [hrfl]
      cases heq : spAux o b (bfsFuel o) [a] [a] [] with
      | none => rfl
      | some path =>
          rw [heq] at hspec
          have hspec' : ∃ n, IsDist o a b n ∧ path.length = n + 1 ∧
              path.head? = some a ∧ path.getLast? = some b ∧
              ValidWalk o path := hspec
          rcases hspec' with ⟨n, h1, -⟩
          exact absurd ⟨n, h1.1⟩ hunreach

theorem C5_shortest_path_correct_witness :
    shortest_path chainGraph 1 3 = some [1, 2, 3] ∧
      (([1, 2, 3] : List Nat).head? = some 1 ∧
        ([1, 2, 3] : List Nat).getLast? = some 3 ∧
        ValidWalk chainGraph [1, 2, 3] ∧
        ∃ n, IsDist chainGraph 1 3 n ∧ ([1, 2, 3] : List Nat).length = n + 1) :=
  ⟨by decide,
   (C5_shortest_path_correct chainGraph 1 3).1 [1, 2, 3] (by decide)⟩

/-! ## Claim theorem: trivial self path -/

/-- C10. For every graph state and every id `a` — entity or not —
`shortest_path(a, a)` returns `Some([a])`: the start is popped first, equals
the target, and reconstruction from an empty predecessor map yields the
one-element path. -/
theorem C10_trivial_path (o : Ontology) (a : Nat) :
    shortest_path o a a = some [a] := by
  show spAux o a ((adjUniv o).length + 1 + 1) [a] [a] [] = some [a]
  rw [spAux]
  rw [if_pos rfl]
  show some ((buildPath [] ((adjUniv o).length + 1 + 1) a [a]).reverse) = _
  rw [buildPath]
  simp [lookupA]

end Astra
